import Mathlib

/-!
Shallow embedding of `pyvmg.py`: a batch converter that extracts
(contact, timestamp, body) from `.vmg` message files and renders the
aggregated, date-sorted records as text, CSV or XML.

Strings are modelled as `List Char`.  The three regular expressions of
`VMGReader` (`TEL_RE`, `DATE_RE`, `BODY_RE`) are embedded as executable
leftmost-match scanners with Python `re.search` semantics (leftmost start
position, alternatives tried left to right, greedy repetition).
`datetime.strptime(_, '%Y%m%dT%H%M%SZ')` is embedded with CPython's
`_strptime` field patterns and backtracking order, followed by the
`datetime` constructor's range validation.  Python's `\w` is modelled on
the ASCII range (alphanumeric or underscore).
-/

namespace Pyvmg

/-- `\w` of Python `re` (modelled on the ASCII range). -/
def isWordChar (c : Char) : Bool := c.isAlphanum || c = '_'

/-- the character class `[\dTZ]` of `DATE_RE`. -/
def isNokChar (c : Char) : Bool := c.isDigit || c = 'T' || c = 'Z'

/-- the character class `[\d.: ]` of `BODY_RE`. -/
def isDateChar (c : Char) : Bool := c.isDigit || c = '.' || c = ':' || c = ' '

/-- Leftmost-match search scaffold shared by the three regexes: try to match
at every start position, left to right, as `re.search` does. -/
def scanAux (f : List Char → Option β) : List Char → Option β
  | [] => f []
  | c :: cs => (f (c :: cs)).or (scanAux f cs)

/-- Match `TEL:(\w+|\+?\d+)` at the start of `m`; returns the capture group.
The first alternative `\w+` is tried first; since every digit is a word
character, the second alternative only fires on a leading `+`. -/
def tryTel (m : List Char) : Option (List Char) :=
  if "TEL:".toList.isPrefixOf m then
    match m.drop 4 with
    | [] => none
    | c :: cs =>
      if isWordChar c then some (c :: cs.takeWhile isWordChar)
      else if c = '+' then
        match cs with
        | [] => none
        | d :: ds => if d.isDigit then some ('+' :: d :: ds.takeWhile Char.isDigit) else none
      else none
  else none

/-- Match `X-NOK-DT:([\dTZ]+)` at the start of `m`; returns the capture group. -/
def tryNok (m : List Char) : Option (List Char) :=
  if "X-NOK-DT:".toList.isPrefixOf m then
    match m.drop 9 with
    | [] => none
    | c :: cs => if isNokChar c then some (c :: cs.takeWhile isNokChar) else none
  else none

/-- Split `l` around the LAST occurrence of `pat`: returns
`some (before, after)` with `l = before ++ pat ++ after`, or `none` if `pat`
does not occur.  (Models the greedy `(.*)` running up to the last
`END:VBODY`.) -/
def lastSplit (pat : List Char) : List Char → Option (List Char × List Char)
  | [] => if pat.isEmpty then some ([], []) else none
  | c :: cs =>
    match lastSplit pat cs with
    | some (b, a) => some (c :: b, a)
    | none => if pat.isPrefixOf (c :: cs) then some ([], (c :: cs).drop pat.length) else none

/-- Match `Date:[\d.: ]+\n(.*)END:VBODY` (DOTALL) at the start of `m`;
returns the capture group.  The `[\d.: ]+` run is maximal (a shorter run
cannot be followed by `\n`), and the greedy `(.*)` extends to the last
occurrence of `END:VBODY`. -/
def tryBody (m : List Char) : Option (List Char) :=
  if "Date:".toList.isPrefixOf m then
    if ((m.drop 5).takeWhile isDateChar).isEmpty then none
    else
      match (m.drop 5).drop ((m.drop 5).takeWhile isDateChar).length with
      | '\n' :: tail => (lastSplit "END:VBODY".toList tail).map (·.1)
      | _ => none
  else none

/-! ### `datetime.strptime(_, '%Y%m%dT%H%M%SZ')`

CPython's `_strptime` compiles the format into the regex
`(?P<Y>\d\d\d\d)(?P<m>1[0-2]|0[1-9]|[1-9])(?P<d>3[01]|[12]\d|0[1-9]|[1-9])T`
`(?P<H>2[0-3]|[0-1]\d|\d)(?P<M>[0-5]\d|\d)(?P<S>6[0-1]|[0-5]\d|\d)Z`,
requires the whole string to be consumed, and then the `datetime`
constructor validates the ranges (raising `ValueError`, which `pyvmg`
catches and turns into the epoch).  Each `cand*` function lists the
candidate `(value, rest)` parses of one field in the regex's alternative
order; `List.findSome?` over them realises the backtracking order. -/

/-- numeric value of a decimal digit character. -/
def digVal (c : Char) : Nat := c.toNat - 48

/-- `(?P<Y>\d\d\d\d)`: exactly four digits. -/
def candY : List Char → List (Nat × List Char)
  | c1 :: c2 :: c3 :: c4 :: rest =>
    if c1.isDigit && c2.isDigit && c3.isDigit && c4.isDigit then
      [(digVal c1 * 1000 + digVal c2 * 100 + digVal c3 * 10 + digVal c4, rest)]
    else []
  | _ => []

/-- `(?P<m>1[0-2]|0[1-9]|[1-9])`. -/
def candM : List Char → List (Nat × List Char)
  | [] => []
  | [c1] => if '1' ≤ c1 && c1 ≤ '9' then [(digVal c1, [])] else []
  | c1 :: c2 :: rest =>
    (if c1 = '1' && '0' ≤ c2 && c2 ≤ '2' then [(10 + digVal c2, rest)] else []) ++
    (if c1 = '0' && '1' ≤ c2 && c2 ≤ '9' then [(digVal c2, rest)] else []) ++
    (if '1' ≤ c1 && c1 ≤ '9' then [(digVal c1, c2 :: rest)] else [])

/-- `(?P<d>3[01]|[12]\d|0[1-9]|[1-9])`. -/
def candD : List Char → List (Nat × List Char)
  | [] => []
  | [c1] => if '1' ≤ c1 && c1 ≤ '9' then [(digVal c1, [])] else []
  | c1 :: c2 :: rest =>
    (if c1 = '3' && ('0' ≤ c2 && c2 ≤ '1') then [(30 + digVal c2, rest)] else []) ++
    (if ('1' ≤ c1 && c1 ≤ '2') && c2.isDigit then [(digVal c1 * 10 + digVal c2, rest)] else []) ++
    (if c1 = '0' && '1' ≤ c2 && c2 ≤ '9' then [(digVal c2, rest)] else []) ++
    (if '1' ≤ c1 && c1 ≤ '9' then [(digVal c1, c2 :: rest)] else [])

/-- `(?P<H>2[0-3]|[0-1]\d|\d)`. -/
def candH : List Char → List (Nat × List Char)
  | [] => []
  | [c1] => if c1.isDigit then [(digVal c1, [])] else []
  | c1 :: c2 :: rest =>
    (if c1 = '2' && ('0' ≤ c2 && c2 ≤ '3') then [(20 + digVal c2, rest)] else []) ++
    (if ('0' ≤ c1 && c1 ≤ '1') && c2.isDigit then [(digVal c1 * 10 + digVal c2, rest)] else []) ++
    (if c1.isDigit then [(digVal c1, c2 :: rest)] else [])

/-- `(?P<M>[0-5]\d|\d)`. -/
def candMin : List Char → List (Nat × List Char)
  | [] => []
  | [c1] => if c1.isDigit then [(digVal c1, [])] else []
  | c1 :: c2 :: rest =>
    (if ('0' ≤ c1 && c1 ≤ '5') && c2.isDigit then [(digVal c1 * 10 + digVal c2, rest)] else []) ++
    (if c1.isDigit then [(digVal c1, c2 :: rest)] else [])

/-- `(?P<S>6[0-1]|[0-5]\d|\d)` (leap seconds are admitted by the regex and
rejected later by the `datetime` constructor). -/
def candS : List Char → List (Nat × List Char)
  | [] => []
  | [c1] => if c1.isDigit then [(digVal c1, [])] else []
  | c1 :: c2 :: rest =>
    (if c1 = '6' && ('0' ≤ c2 && c2 ≤ '1') then [(60 + digVal c2, rest)] else []) ++
    (if ('0' ≤ c1 && c1 ≤ '5') && c2.isDigit then [(digVal c1 * 10 + digVal c2, rest)] else []) ++
    (if c1.isDigit then [(digVal c1, c2 :: rest)] else [])

/-- A calendar date-time with second precision (the projection of a Python
`datetime` used by this program). -/
structure DateTime6 where
  year : Nat
  month : Nat
  day : Nat
  hour : Nat
  minute : Nat
  second : Nat
deriving DecidableEq, Repr

/-- `datetime.datetime(1970, 1, 1, 0, 0)`. -/
def epoch : DateTime6 := ⟨1970, 1, 1, 0, 0, 0⟩

/-- Gregorian leap year rule used by `datetime`. -/
def isLeap (y : Nat) : Bool := (y % 4 = 0 && y % 100 ≠ 0) || y % 400 = 0

/-- days in a month, per `datetime`. -/
def daysInMonth (y mo : Nat) : Nat :=
  if mo = 2 then (if isLeap y then 29 else 28)
  else if mo = 4 || mo = 6 || mo = 9 || mo = 11 then 30
  else 31

/-- the `datetime.datetime` constructor's range checks on the fields that
the regex does not already pin down (`MINYEAR = 1`; day of month; seconds
`60`/`61` admitted by the `%S` pattern). -/
def validDT (t : DateTime6) : Bool :=
  1 ≤ t.year && 1 ≤ t.day && t.day ≤ daysInMonth t.year t.month && t.second ≤ 59

/-- the regex phase of `strptime`: first full parse in backtracking order. -/
def strptimeMatch (tok : List Char) : Option DateTime6 :=
  (candY tok).findSome? fun (y, r1) =>
    (candM r1).findSome? fun (mo, r2) =>
      (candD r2).findSome? fun (d, r3) =>
        match r3 with
        | 'T' :: r4 =>
          (candH r4).findSome? fun (h, r5) =>
            (candMin r5).findSome? fun (mi, r6) =>
              (candS r6).findSome? fun (s, r7) =>
                if r7 = ['Z'] then some ⟨y, mo, d, h, mi, s⟩ else none
        | _ => none

/-- `datetime.strptime(tok, '%Y%m%dT%H%M%SZ')`, returning `none` where
Python raises `ValueError` (no regex match, or constructor range error). -/
def strptime (tok : List Char) : Option DateTime6 :=
  (strptimeMatch tok).bind fun t => if validDT t then some t else none

/-! ### `VMGReader` and `Writer.processdir` -/

/-- the dictionary produced by `VMGReader.process`. -/
structure MsgData where
  contact : List Char
  date : DateTime6
  body : List Char
deriving DecidableEq, Repr

/-- `VMGReader.process` on the (NUL-stripped) message text: the three
`re.search`es, with the epoch fallback when `X-NOK-DT` is absent or its
token fails to parse. -/
def process (message : List Char) : MsgData :=
  { contact := (scanAux tryTel message).getD []
    date :=
      match scanAux tryNok message with
      | some tok => (strptime tok).getD epoch
      | none => epoch
    body := (scanAux tryBody message).getD [] }

/-- `VMGReader.read`: the file content with all NUL characters removed. -/
def stripNul (content : List Char) : List Char := content.filter (· ≠ '\x00')

/-- zero-padded decimal rendering, two digits. -/
def pad2 (n : Nat) : List Char := [Char.ofNat (48 + n / 10 % 10), Char.ofNat (48 + n % 10)]

/-- zero-padded decimal rendering, four digits. -/
def pad4 (n : Nat) : List Char :=
  [Char.ofNat (48 + n / 1000 % 10), Char.ofNat (48 + n / 100 % 10),
   Char.ofNat (48 + n / 10 % 10), Char.ofNat (48 + n % 10)]

/-- `date.strftime('%Y-%m-%d %H:%M:%S')` (`Writer.DATETIME_FORMAT`). -/
def strftime (t : DateTime6) : List Char :=
  pad4 t.year ++ '-' :: pad2 t.month ++ '-' :: pad2 t.day ++
    ' ' :: pad2 t.hour ++ ':' :: pad2 t.minute ++ ':' :: pad2 t.second

/-- one entry of `Writer.messages`: the `msg` dictionary after the date has
been formatted and the file path attached. -/
structure Rec where
  contact : List Char
  date : List Char
  body : List Char
  file : List Char
deriving DecidableEq, Repr

/-- one loop iteration of `Writer.processdir` on file `f` with raw content
`content`: `reader.read(f); msg = reader.process(); msg['date'] = ...;
msg['file'] = f`. -/
def processFile (f : List Char) (content : List Char) : Rec :=
  let d := process (stripNul content)
  { contact := d.contact, date := strftime d.date, body := d.body, file := f }

/-- the retention test: `pyvmg` skips the record iff
`any(v == '' for v in msg.values())`. -/
def keep (r : Rec) : Bool :=
  !(r.contact.isEmpty || r.date.isEmpty || r.body.isEmpty || r.file.isEmpty)

/-- the hypothesis of the epoch-fallback claim: the `X-NOK-DT` search fails
on this file content, or its token fails to `strptime`. -/
def dateMissingOrMalformed (content : List Char) : Bool :=
  match scanAux tryNok (stripNul content) with
  | none => true
  | some tok => (strptime tok).isNone

/-- Python string `<=`: lexicographic comparison by code point. -/
def lexLe : List Char → List Char → Bool
  | [], _ => true
  | _ :: _, [] => false
  | a :: as, b :: bs => if a < b then true else if b < a then false else lexLe as bs

/-- the sort key comparison of `self.messages.sort(key=itemgetter('date'))`. -/
def dateLe (a b : Rec) : Prop := lexLe a.date b.date = true

instance : DecidableRel dateLe := fun a b => by unfold dateLe; infer_instance

/-- `Writer.processdir`, over a directory listing given as `(path, content)`
pairs in filesystem enumeration order: process every file, skip records
with an empty field, and stable-sort by the formatted date string
(Python's `list.sort` is stable; a stable sort w.r.t. a total preorder is
unique, so insertion sort models it exactly). -/
def processdir (files : List (List Char × List Char)) : List Rec :=
  ((files.map fun p => processFile p.1 p.2).filter keep).insertionSort dateLe

/-! ### `escapexml`

Six sequential `str.replace` calls.  A single-character pattern replace is
exactly a per-character `flatMap`; the fifth pattern is the two-character
string `Â¤` (U+00C2 U+00A4, as the UTF-8 source reads in Python 3) and is
modelled by a left-to-right non-overlapping scan. -/

/-- `replace('&', '&amp;')`. -/
def repl1 (c : Char) : List Char := if c = '&' then "&amp;".toList else [c]

/-- `replace('<', '&lt;')`. -/
def repl2 (c : Char) : List Char := if c = '<' then "&lt;".toList else [c]

/-- `replace('>', '&gt;')`. -/
def repl3 (c : Char) : List Char := if c = '>' then "&gt;".toList else [c]

/-- `replace('"', '&quot;')`. -/
def repl4 (c : Char) : List Char := if c = '\"' then "&quot;".toList else [c]

/-- `replace('Â¤', '&curren;')`: left-to-right non-overlapping scan for the
two-character pattern. -/
def replaceCurren : List Char → List Char
  | c1 :: c2 :: rest =>
    if c1 = 'Â' && c2 = '¤' then "&curren;".toList ++ replaceCurren rest
    else c1 :: replaceCurren (c2 :: rest)
  | l => l

/-- `replace('\xe4', '&auml;')`. -/
def repl6 (c : Char) : List Char := if c = 'ä' then "&auml;".toList else [c]

/-- `escapexml` of `pyvmg.py`. -/
def escapexml (x : List Char) : List Char :=
  (replaceCurren ((((x.flatMap repl1).flatMap repl2).flatMap repl3).flatMap repl4)).flatMap repl6

/-- the entity bodies that `escapexml` can introduce after an `&`. -/
def entityTails : List (List Char) :=
  ["amp;".toList, "lt;".toList, "gt;".toList, "quot;".toList, "curren;".toList, "auml;".toList]

/-- checker: every `&` is immediately followed by one of the introduced
entity bodies. -/
def ampOk : List Char → Bool
  | [] => true
  | c :: cs => (if c = '&' then entityTails.any (·.isPrefixOf cs) else true) && ampOk cs

/-- the composite of the first four (single-character) replaces of
`escapexml`; proven below to equal their sequential application. -/
def esc4 (c : Char) : List Char :=
  if c = '&' then "&amp;".toList
  else if c = '<' then "&lt;".toList
  else if c = '>' then "&gt;".toList
  else if c = '\"' then "&quot;".toList
  else [c]

/-! ### the three writers and `main` -/

/-- the per-record template `tmpl` of `XMLWriter.write`, filled in as
`tmpl % (msg['file'], msg['contact'], msg['date'], escapexml(msg['body'])[:-1])`.
Note the `[:-1]`: the last character of the escaped body is dropped. -/
def xmlTemplate (r : Rec) : List Char :=
  "\n  <message>\n    <file>\n      ".toList ++ r.file ++
    "\n    </file>\n    <contact>".toList ++ r.contact ++
    "</contact>\n    <date>".toList ++ r.date ++
    "</date>\n    <body>\n      ".toList ++ (escapexml r.body).dropLast ++
    "\n    </body>\n  </message>".toList

/-- `XMLWriter.write` on the current `self.messages`: the string written to
the output file by one call. -/
def XMLWriter.write (msgs : List Rec) : List Char :=
  "<messages>".toList ++ (msgs.map xmlTemplate).flatten ++ "</messages>".toList

/-- CPython `csv` `QUOTE_MINIMAL`: quote a field iff it contains the
delimiter, the quote character, or a line-terminator character. -/
def needsQuote (f : List Char) : Bool :=
  f.any fun c => c = ',' || c = '\"' || c = '\r' || c = '\n'

/-- double every quote character (csv `doublequote=True`). -/
def escQuote (f : List Char) : List Char :=
  f.flatMap fun c => if c = '\"' then ['\"', '\"'] else [c]

/-- one csv field as emitted by `csv.writer`. -/
def renderField (f : List Char) : List Char :=
  if needsQuote f then '\"' :: (escQuote f ++ ['\"']) else f

/-- one `writerow`: comma-separated fields, `\r\n` terminator. -/
def renderRow : List (List Char) → List Char
  | [] => ['\r', '\n']
  | [f] => renderField f ++ ['\r', '\n']
  | f :: fs => renderField f ++ ',' :: renderRow fs

/-- `CSVWriter.write`: header row then one row per record. -/
def CSVWriter.write (msgs : List Rec) : List Char :=
  renderRow ["contact".toList, "date".toList, "body".toList] ++
    (msgs.map fun m => renderRow [m.contact, m.date, m.body]).flatten

/-- state of a standard comma-delimited (RFC-4180 style) parser:
at a field start, inside an unquoted field, inside a quoted field, just
after a closing quote, or expecting the `\n` of a `\r\n` terminator. -/
inductive CsvMode where
  | start | unq | quo | afterq | needNL
deriving DecidableEq, Repr

/-- a standard comma-delimited parser as a character-at-a-time state
machine: `csvAux mode cur row rows input` with the current field `cur`,
the fields of the current row `row`, and the finished rows `rows`.
Doubled quotes inside a quoted field re-enter the quoted state appending
one quote; rows are terminated by `\r\n`; a malformed input (an
unterminated quote, junk after a closing quote, a bare `\r`) yields
`none`. -/
def csvAux : CsvMode → List Char → List (List Char) → List (List (List Char)) → List Char →
    Option (List (List (List Char)))
  | mode, cur, row, rows, [] =>
    match mode with
    | .start => if row.isEmpty then some rows else some (rows ++ [row ++ [[]]])
    | .unq => some (rows ++ [row ++ [cur]])
    | .quo => none
    | .afterq => some (rows ++ [row ++ [cur]])
    | .needNL => none
  | mode, cur, row, rows, c :: rest =>
    match mode with
    | .start =>
      if c = '\"' then csvAux .quo [] row rows rest
      else if c = ',' then csvAux .start [] (row ++ [[]]) rows rest
      else if c = '\r' then csvAux .needNL [] [] (rows ++ [row ++ [[]]]) rest
      else csvAux .unq [c] row rows rest
    | .unq =>
      if c = ',' then csvAux .start [] (row ++ [cur]) rows rest
      else if c = '\r' then csvAux .needNL [] [] (rows ++ [row ++ [cur]]) rest
      else csvAux .unq (cur ++ [c]) row rows rest
    | .quo =>
      if c = '\"' then csvAux .afterq cur row rows rest
      else csvAux .quo (cur ++ [c]) row rows rest
    | .afterq =>
      if c = '\"' then csvAux .quo (cur ++ ['\"']) row rows rest
      else if c = ',' then csvAux .start [] (row ++ [cur]) rows rest
      else if c = '\r' then csvAux .needNL [] [] (rows ++ [row ++ [cur]]) rest
      else none
    | .needNL =>
      if c = '\n' then csvAux .start [] [] rows rest
      else none

/-- parse a whole comma-delimited document into rows of fields. -/
def parseCsv (input : List Char) : Option (List (List (List Char))) :=
  csvAux .start [] [] [] input

/-- `TextWriter.write`: one banner block per record. -/
def TextWriter.write (msgs : List Rec) : List Char :=
  (msgs.map fun m =>
    "=============================\nFile        : ".toList ++ m.file ++
    "\nContact     : ".toList ++ m.contact ++
    "\nDate        : ".toList ++ m.date ++
    "\nMessage     :\n".toList ++ m.body ++
    "\n=============================\n".toList).flatten

/-- the writer state of `main`'s loop: `self.messages` (overwritten by each
`processdir` call) and the output file contents (the file is opened once;
each `write` call appends). -/
structure WState where
  messages : List Rec
  out : List Char

/-- one iteration of `main`'s `for single_dir in args.in_dir` loop:
`writer.processdir(single_dir); writer.write()`. -/
def mainStep (render : List Rec → List Char) (w : WState) (dir : List (List Char × List Char)) :
    WState :=
  let msgs := processdir dir
  { messages := msgs, out := w.out ++ render msgs }

/-- `main` over the given input directories (each a listing of
`(path, content)` pairs): the final contents of the output file. -/
def mainLoop (render : List Rec → List Char)
    (dirs : List (List (List Char × List Char))) : List Char :=
  (dirs.foldl (mainStep render) ⟨[], []⟩).out

/-! ### a generic well-formed `.vmg` file -/

/-- the canonical `YYYYMMDDTHHMMSSZ` token. -/
def dtTok (y mo d h mi s : Nat) : List Char :=
  pad4 y ++ pad2 mo ++ pad2 d ++ 'T' :: (pad2 h ++ pad2 mi ++ pad2 s ++ ['Z'])

/-- a source file carrying all four well-formed markers, generic in the
payloads. -/
def mkVmg (tel dt dateline body : List Char) : List Char :=
  "BEGIN:VMSG\nTEL:".toList ++ tel ++
    '\n' :: ("X-NOK-DT:".toList ++ dt ++
      '\n' :: ("BEGIN:VBODY\nDate:".toList ++ dateline ++
        '\n' :: (body ++ "END:VBODY\nEND:VMSG\n".toList)))

/-- an acceptable `TEL:` payload: a nonempty word-character token, or `+`
followed by a nonempty digit string. -/
def telOk (tel : List Char) : Prop :=
  (tel ≠ [] ∧ ∀ c ∈ tel, isWordChar c = true) ∨
    (∃ ds, tel = '+' :: ds ∧ ds ≠ [] ∧ ∀ c ∈ ds, c.isDigit = true)

/-! ### the spec sentence's reading of `BODY_RE`, and the amended reading -/

/-- Split `l` around the FIRST occurrence of `pat` (the claim reads the body
as ending at the end-of-body marker, i.e. the first `END:VBODY`). -/
def firstSplit (pat : List Char) : List Char → Option (List Char × List Char)
  | [] => if pat.isEmpty then some ([], []) else none
  | c :: cs =>
    if pat.isPrefixOf (c :: cs) then some ([], (c :: cs).drop pat.length)
    else
      match firstSplit pat cs with
      | some (b, a) => some (c :: b, a)
      | none => none

/-- the claim's per-position body match: `Date:` plus a nonempty date-like
run plus a newline, then the text up to the FIRST `END:VBODY`. -/
def tryBodyClaim (m : List Char) : Option (List Char) :=
  if "Date:".toList.isPrefixOf m then
    if ((m.drop 5).takeWhile isDateChar).isEmpty then none
    else
      match (m.drop 5).drop ((m.drop 5).takeWhile isDateChar).length with
      | '\n' :: tail => (firstSplit "END:VBODY".toList tail).map (·.1)
      | _ => none
  else none

/-- Modelled from the spec sentence of C5 (not from the code): the body is
the first such span whose `Date:` stands at the beginning of a line.  The
flag records whether the current position is at a line start. -/
def bodySpecClaim : Bool → List Char → Option (List Char)
  | _, [] => none
  | atStart, c :: cs =>
    (if atStart then tryBodyClaim (c :: cs) else none).or (bodySpecClaim (c = '\n') cs)

/-- all start positions of `pat` inside `l`. -/
def occIdxs (pat l : List Char) : List Nat :=
  (List.range (l.length + 1)).filter fun i => pat.isPrefixOf (l.drop i)

/-- the start position of the last occurrence of `pat` inside `l`. -/
def lastOcc (pat l : List Char) : Option Nat := (occIdxs pat l).getLast?

/-- the amended reading of one position of `BODY_RE`: `Date:` (anywhere, not
only at a line start) plus a nonempty date-like run plus a newline, then the
text up to the LAST following occurrence of `END:VBODY`. -/
def tryBodyAmended (m : List Char) : Option (List Char) :=
  if "Date:".toList.isPrefixOf m then
    if ((m.drop 5).takeWhile isDateChar).isEmpty then none
    else
      match (m.drop 5).drop ((m.drop 5).takeWhile isDateChar).length with
      | '\n' :: tail => (lastOcc "END:VBODY".toList tail).map fun i => tail.take i
      | _ => none
  else none

/-- the amended reading of the whole body search, stated declaratively: the
match at the least start position that matches at all. -/
def bodyAmended (m : List Char) : Option (List Char) :=
  (List.range (m.length + 1)).findSome? fun i => tryBodyAmended (m.drop i)

/-! ## Theorems -/

/-! ### the comparison `lexLe` is a total preorder -/

theorem lexLe_refl : ∀ l : List Char, lexLe l l = true
  | [] => rfl
  | a :: as => by
    rw [lexLe, if_neg (lt_irrefl a), if_neg (lt_irrefl a)]
    exact lexLe_refl as

theorem lexLe_total : ∀ a b : List Char, lexLe a b = true ∨ lexLe b a = true
  | [], _ => Or.inl rfl
  | _ :: _, [] => Or.inr rfl
  | a :: as, b :: bs => by
    rcases lt_trichotomy a b with h | h | h
    · exact Or.inl (by rw [lexLe, if_pos h])
    · subst h
      rw [lexLe, if_neg (lt_irrefl a), if_neg (lt_irrefl a),
        lexLe, if_neg (lt_irrefl a), if_neg (lt_irrefl a)]
      exact lexLe_total as bs
    · exact Or.inr (by rw [lexLe, if_pos h])

theorem lexLe_trans : ∀ {a b c : List Char},
    lexLe a b = true → lexLe b c = true → lexLe a c = true
  | [], _, _, _, _ => rfl
  | _ :: _, [], _, h, _ => by simp [lexLe] at h
  | _ :: _, _ :: _, [], _, h => by simp [lexLe] at h
  | a :: as, b :: bs, c :: cs, hab, hbc => by
    rw [lexLe] at hab hbc ⊢
    rcases lt_trichotomy a b with h1 | h1 | h1
    · rcases lt_trichotomy b c with h2 | h2 | h2
      · rw [if_pos (h1.trans h2)]
      · subst h2; rw [if_pos h1]
      · rw [if_neg (asymm h2), if_pos h2] at hbc
        simp at hbc
    · subst h1
      rcases lt_trichotomy a c with h2 | h2 | h2
      · rw [if_pos h2]
      · subst h2
        rw [if_neg (lt_irrefl a), if_neg (lt_irrefl a)] at hab hbc ⊢
        exact lexLe_trans hab hbc
      · rw [if_neg (asymm h2), if_pos h2] at hbc
        simp at hbc
    · rw [if_neg (asymm h1), if_pos h1] at hab
      simp at hab

instance : IsTotal Rec dateLe := ⟨fun a b => lexLe_total a.date b.date⟩

instance : IsTrans Rec dateLe := ⟨fun _ _ _ hab hbc => lexLe_trans hab hbc⟩

theorem dateLe_of_eq {a b : Rec} (h : a.date = b.date) : dateLe a b := by
  unfold dateLe; rw [h]; exact lexLe_refl _

/-! ### retention -/

theorem keep_iff {r : Rec} :
    keep r = true ↔ (r.contact ≠ [] ∧ r.date ≠ [] ∧ r.body ≠ [] ∧ r.file ≠ []) := by
  simp [keep, List.isEmpty_iff, and_assoc]

theorem mem_processdir (files : List (List Char × List Char)) (r : Rec) :
    r ∈ processdir files ↔
      ((∃ p ∈ files, processFile p.1 p.2 = r) ∧
        (r.contact ≠ [] ∧ r.date ≠ [] ∧ r.body ≠ [] ∧ r.file ≠ [])) := by
  unfold processdir
  rw [List.mem_insertionSort, List.mem_filter, keep_iff, List.mem_map]

/-- **C3.**  A processed record is retained in the aggregated sequence iff
all four of its fields (contact, formatted timestamp, body, source path)
are non-empty; in particular any record with an empty contact or empty
body is excluded, and the remaining files still contribute. -/
theorem retained_iff_fields_nonempty (files : List (List Char × List Char)) (r : Rec) :
    r ∈ processdir files ↔
      ((∃ p ∈ files, processFile p.1 p.2 = r) ∧
        (r.contact ≠ [] ∧ r.date ≠ [] ∧ r.body ≠ [] ∧ r.file ≠ [])) :=
  mem_processdir files r

/-- **C2.**  If the `X-NOK-DT` marker is absent or its token does not parse
as `YYYYMMDDTHHMMSSZ`, extraction substitutes the epoch, so the formatted
timestamp is exactly `1970-01-01 00:00:00` (hence non-empty and never a
skip trigger), and the record is still included in the aggregate exactly
when its contact and body (and the always non-empty glob path) are
non-empty.  The embedded extraction is a total function: the `ValueError`
of `strptime` is caught and no other failure exists. -/
theorem epoch_fallback_keeps_record (f content : List Char)
    (h : dateMissingOrMalformed content = true) :
    (processFile f content).date = "1970-01-01 00:00:00".toList ∧
      (processFile f content ∈ processdir [(f, content)] ↔
        ((processFile f content).contact ≠ [] ∧ (processFile f content).body ≠ [] ∧ f ≠ [])) := by
  have hdate : (processFile f content).date = "1970-01-01 00:00:00".toList := by
    unfold dateMissingOrMalformed at h
    have hd : (process (stripNul content)).date = epoch := by
      rcases hscan : scanAux tryNok (stripNul content) with _ | tok
      · simp [process, hscan]
      · rw [hscan] at h
        simp only [Option.isNone_iff_eq_none] at h
        simp [process, hscan, h]
    show strftime (process (stripNul content)).date = _
    rw [hd]
    decide
  refine ⟨hdate, ?_⟩
  rw [mem_processdir]
  have hfile : (processFile f content).file = f := rfl
  constructor
  · rintro ⟨-, hc, -, hb, hf⟩
    rw [hfile] at hf
    exact ⟨hc, hb, hf⟩
  · rintro ⟨hc, hb, hf⟩
    refine ⟨⟨(f, content), by simp, rfl⟩, hc, ?_, hb, ?_⟩
    · rw [hdate]; simp
    · rw [hfile]; exact hf

/-- witness for the epoch-fallback theorem at a concrete file whose
`X-NOK-DT` token `TTT` fails to parse. -/
theorem epoch_fallback_keeps_record_witness :
    dateMissingOrMalformed "TEL:5\nX-NOK-DT:TTT\nDate:1\nhiEND:VBODY".toList = true ∧
      ((processFile "a.vmg".toList "TEL:5\nX-NOK-DT:TTT\nDate:1\nhiEND:VBODY".toList).date =
          "1970-01-01 00:00:00".toList ∧
        (processFile "a.vmg".toList "TEL:5\nX-NOK-DT:TTT\nDate:1\nhiEND:VBODY".toList ∈
            processdir [("a.vmg".toList, "TEL:5\nX-NOK-DT:TTT\nDate:1\nhiEND:VBODY".toList)] ↔
          ((processFile "a.vmg".toList
                "TEL:5\nX-NOK-DT:TTT\nDate:1\nhiEND:VBODY".toList).contact ≠ [] ∧
            (processFile "a.vmg".toList
                "TEL:5\nX-NOK-DT:TTT\nDate:1\nhiEND:VBODY".toList).body ≠ [] ∧
            "a.vmg".toList ≠ []))) :=
  ⟨by decide, epoch_fallback_keeps_record "a.vmg".toList
    "TEL:5\nX-NOK-DT:TTT\nDate:1\nhiEND:VBODY".toList (by decide)⟩

theorem filter_orderedInsert (p : Rec → Bool)
    (hp : ∀ a b : Rec, p a = true → p b = true → a.date = b.date)
    (a : Rec) (L : List Rec) :
    (L.orderedInsert dateLe a).filter p =
      if p a then a :: L.filter p else L.filter p := by
  induction L with
  | nil => simp [List.orderedInsert, List.filter_cons]
  | cons b L ih =>
    rw [List.orderedInsert]
    by_cases hab : dateLe a b
    · rw [if_pos hab]
      simp [List.filter_cons]
    · rw [if_neg hab, List.filter_cons]
      by_cases hpb : p b = true
      · have hpa : ¬ p a = true := fun hpa => hab (dateLe_of_eq (hp a b hpa hpb))
        rw [if_pos hpb, ih, if_neg hpa, if_neg hpa, List.filter_cons, if_pos hpb]
      · rw [if_neg hpb, ih, List.filter_cons, if_neg hpb]

theorem filter_insertionSort (p : Rec → Bool)
    (hp : ∀ a b : Rec, p a = true → p b = true → a.date = b.date)
    (l : List Rec) :
    (l.insertionSort dateLe).filter p = l.filter p := by
  induction l with
  | nil => rfl
  | cons a l ih =>
    rw [List.insertionSort, filter_orderedInsert p hp, List.filter_cons]
    by_cases hpa : p a = true
    · rw [if_pos hpa, if_pos hpa, ih]
    · rw [if_neg hpa, if_neg hpa, ih]

/-- **C4.**  The aggregated sequence is sorted ascending by the formatted
timestamp string under lexicographic (code-point) comparison, and the sort
is stable: for every date `d`, the records carrying `d` appear in exactly
their original file-enumeration order (their order in the pre-sort filtered
list). -/
theorem processdir_sorted_stable (files : List (List Char × List Char)) :
    List.Sorted dateLe (processdir files) ∧
      ∀ d : List Char,
        (processdir files).filter (fun r => r.date == d) =
          ((files.map fun p => processFile p.1 p.2).filter keep).filter
            (fun r => r.date == d) := by
  constructor
  · exact List.sorted_insertionSort dateLe _
  · intro d
    apply filter_insertionSort
    intro a b ha hb
    have ha' : a.date = d := by simpa using ha
    have hb' : b.date = d := by simpa using hb
    rw [ha', hb']

/-! ### `escapexml` -/

theorem ampOk_cons (c : Char) (cs : List Char) :
    ampOk (c :: cs) =
      ((if c = '&' then entityTails.any (·.isPrefixOf cs) else true) && ampOk cs) := rfl

theorem isPrefixOf_append_extend {t l r : List Char} (h : t.isPrefixOf l = true) :
    t.isPrefixOf (l ++ r) = true := by
  rw [List.isPrefixOf_iff_prefix] at h ⊢
  exact h.trans (List.prefix_append l r)

theorem ampOk_append {a b : List Char} (ha : ampOk a = true) (hb : ampOk b = true) :
    ampOk (a ++ b) = true := by
  induction a with
  | nil => exact hb
  | cons c cs ih =>
    rw [List.cons_append, ampOk_cons]
    rw [ampOk_cons, Bool.and_eq_true_iff] at ha
    refine Bool.and_eq_true_iff.mpr ⟨?_, ih ha.2⟩
    by_cases hc : c = '&'
    · have h1 := ha.1
      rw [if_pos hc] at h1 ⊢
      rw [List.any_eq_true] at h1 ⊢
      obtain ⟨t, ht, hp⟩ := h1
      exact ⟨t, ht, isPrefixOf_append_extend hp⟩
    · rw [if_neg hc]

theorem ampOk_esc4 (c : Char) : ampOk (esc4 c) = true := by
  by_cases h1 : c = '&'
  · subst h1; decide
  by_cases h2 : c = '<'
  · subst h2; decide
  by_cases h3 : c = '>'
  · subst h3; decide
  by_cases h4 : c = '\"'
  · subst h4; decide
  · rw [esc4, if_neg h1, if_neg h2, if_neg h3, if_neg h4, ampOk_cons, if_neg h1]
    rfl

theorem ampOk_flatMap_pieces (f : Char → List Char) (hf : ∀ c, ampOk (f c) = true) :
    ∀ l : List Char, ampOk (l.flatMap f) = true
  | [] => rfl
  | c :: cs => by
    rw [List.flatMap_cons]
    exact ampOk_append (hf c) (ampOk_flatMap_pieces f hf cs)

theorem flatMap_esc4_eq (x : List Char) :
    (((x.flatMap repl1).flatMap repl2).flatMap repl3).flatMap repl4 = x.flatMap esc4 := by
  induction x with
  | nil => rfl
  | cons c x ih =>
    rw [List.flatMap_cons, List.flatMap_append, List.flatMap_append, List.flatMap_append,
      List.flatMap_cons, ih]
    congr 1
    by_cases h1 : c = '&'
    · subst h1; decide
    by_cases h2 : c = '<'
    · subst h2; decide
    by_cases h3 : c = '>'
    · subst h3; decide
    by_cases h4 : c = '\"'
    · subst h4; decide
    · simp [repl1, repl2, repl3, repl4, esc4, h1, h2, h3, h4]

theorem replaceCurren_single (c : Char) : replaceCurren [c] = [c] := rfl

theorem replaceCurren_cons₂ (c1 c2 : Char) (rest : List Char) :
    replaceCurren (c1 :: c2 :: rest) =
      if c1 = 'Â' && c2 = '¤' then "&curren;".toList ++ replaceCurren rest
      else c1 :: replaceCurren (c2 :: rest) := rfl

theorem mem_replaceCurren (a : Char) :
    ∀ l : List Char, a ∈ replaceCurren l → a ∈ l ∨ a ∈ "&curren;".toList
  | [], h => absurd h (List.not_mem_nil a)
  | [c], h => Or.inl (by rwa [replaceCurren_single] at h)
  | c1 :: c2 :: rest, h => by
    rw [replaceCurren_cons₂] at h
    by_cases hm : (decide (c1 = 'Â') && decide (c2 = '¤')) = true
    · rw [if_pos hm] at h
      rcases List.mem_append.mp h with h | h
      · exact Or.inr h
      · rcases mem_replaceCurren a rest h with h | h
        · exact Or.inl (by simp [h])
        · exact Or.inr h
    · rw [if_neg hm] at h
      rcases List.mem_cons.mp h with h | h
      · exact Or.inl (by simp [h])
      · rcases mem_replaceCurren a (c2 :: rest) h with h | h
        · exact Or.inl (List.mem_cons_of_mem c1 h)
        · exact Or.inr h

theorem replaceCurren_append_of :
    ∀ (t r : List Char), (∀ c ∈ t, c ≠ 'Â') → replaceCurren (t ++ r) = t ++ replaceCurren r
  | [], _, _ => rfl
  | c :: t', r, ht => by
    have hc : c ≠ 'Â' := ht c (List.mem_cons_self c t')
    have ih := replaceCurren_append_of t' r (fun x hx => ht x (List.mem_cons_of_mem _ hx))
    rw [List.cons_append]
    cases hX : t' ++ r with
    | nil =>
      rcases List.append_eq_nil.mp hX with ⟨ht', hr⟩
      subst ht'; subst hr
      rw [replaceCurren_single]
      rfl
    | cons d Y =>
      have hcond : ¬ ((decide (c = 'Â') && decide (d = '¤')) = true) := by simp [hc]
      rw [replaceCurren_cons₂, if_neg hcond, ← hX, ih, List.cons_append]

theorem entityTails_no_curren_head : ∀ t ∈ entityTails, ∀ c ∈ t, c ≠ 'Â' := by decide

theorem entityTails_no_auml_head : ∀ t ∈ entityTails, ∀ c ∈ t, c ≠ 'ä' := by decide

theorem ampOk_replaceCurren : ∀ l : List Char, ampOk l = true → ampOk (replaceCurren l) = true
  | [], _ => rfl
  | [c], h => by rwa [replaceCurren_single]
  | c1 :: c2 :: rest, h => by
    rw [ampOk_cons, Bool.and_eq_true_iff] at h
    obtain ⟨h1, h2⟩ := h
    have hrest : ampOk rest = true := (Bool.and_eq_true_iff.mp (by rwa [ampOk_cons] at h2)).2
    rw [replaceCurren_cons₂]
    by_cases hm : (decide (c1 = 'Â') && decide (c2 = '¤')) = true
    · rw [if_pos hm]
      exact ampOk_append (by decide) (ampOk_replaceCurren rest hrest)
    · rw [if_neg hm, ampOk_cons]
      refine Bool.and_eq_true_iff.mpr ⟨?_, ampOk_replaceCurren (c2 :: rest) h2⟩
      by_cases hc : c1 = '&'
      · rw [if_pos hc] at h1 ⊢
        rw [List.any_eq_true] at h1 ⊢
        obtain ⟨t, ht, hp⟩ := h1
        obtain ⟨r', hr⟩ := List.isPrefixOf_iff_prefix.mp hp
        refine ⟨t, ht, ?_⟩
        rw [← hr, replaceCurren_append_of t r' (entityTails_no_curren_head t ht)]
        exact List.isPrefixOf_iff_prefix.mpr (List.prefix_append t _)
      · rw [if_neg hc]

theorem flatMap_id_of (f : Char → List Char) :
    ∀ t : List Char, (∀ c ∈ t, f c = [c]) → t.flatMap f = t
  | [], _ => rfl
  | c :: t', h => by
    rw [List.flatMap_cons, h c (List.mem_cons_self c t'),
      flatMap_id_of f t' (fun c hc => h c (List.mem_cons_of_mem _ hc))]
    rfl

theorem ampOk_flatMap_repl6 : ∀ l : List Char, ampOk l = true → ampOk (l.flatMap repl6) = true
  | [], _ => rfl
  | c :: cs, h => by
    rw [ampOk_cons, Bool.and_eq_true_iff] at h
    obtain ⟨h1, h2⟩ := h
    rw [List.flatMap_cons]
    by_cases ha : c = 'ä'
    · have : repl6 c = "&auml;".toList := by rw [repl6, if_pos ha]
      rw [this]
      exact ampOk_append (by decide) (ampOk_flatMap_repl6 cs h2)
    · have : repl6 c = [c] := by rw [repl6, if_neg ha]
      rw [this, List.singleton_append, ampOk_cons]
      refine Bool.and_eq_true_iff.mpr ⟨?_, ampOk_flatMap_repl6 cs h2⟩
      by_cases hc : c = '&'
      · rw [if_pos hc] at h1 ⊢
        rw [List.any_eq_true] at h1 ⊢
        obtain ⟨t, ht, hp⟩ := h1
        obtain ⟨r', hr⟩ := List.isPrefixOf_iff_prefix.mp hp
        refine ⟨t, ht, ?_⟩
        rw [← hr, List.flatMap_append,
          flatMap_id_of repl6 t
            (fun c hc' => by rw [repl6, if_neg (entityTails_no_auml_head t ht c hc')])]
        exact List.isPrefixOf_iff_prefix.mpr (List.prefix_append t _)
      · rw [if_neg hc]

theorem esc4_no_specials (c : Char) :
    ¬ '<' ∈ esc4 c ∧ ¬ '>' ∈ esc4 c ∧ ¬ '\"' ∈ esc4 c := by
  by_cases h1 : c = '&'
  · subst h1; decide
  by_cases h2 : c = '<'
  · subst h2; decide
  by_cases h3 : c = '>'
  · subst h3; decide
  by_cases h4 : c = '\"'
  · subst h4; decide
  · rw [esc4, if_neg h1, if_neg h2, if_neg h3, if_neg h4]
    refine ⟨?_, ?_, ?_⟩ <;> intro hmem <;> rcases List.mem_singleton.mp hmem with rfl
    · exact h2 rfl
    · exact h3 rfl
    · exact h4 rfl

theorem escapexml_eq (x : List Char) :
    escapexml x = (replaceCurren (x.flatMap esc4)).flatMap repl6 := by
  unfold escapexml
  rw [flatMap_esc4_eq]

theorem not_mem_escapexml (x : List Char) (a : Char)
    (ha : ¬ a ∈ "&curren;".toList) (hb : ¬ a ∈ "&auml;".toList)
    (hc : ∀ c : Char, ¬ a ∈ esc4 c) : ¬ a ∈ escapexml x := by
  rw [escapexml_eq]
  intro h
  obtain ⟨b, hbmem, hab⟩ := List.mem_flatMap.mp h
  by_cases hba : b = 'ä'
  · rw [repl6, if_pos hba] at hab
    exact hb hab
  · rw [repl6, if_neg hba] at hab
    rcases List.mem_singleton.mp hab with rfl
    rcases mem_replaceCurren a _ hbmem with h' | h'
    · obtain ⟨d, -, hd⟩ := List.mem_flatMap.mp h'
      exact hc d hd
    · exact ha h'

/-- **C9.**  `escapexml` is total (it is a Lean function) and its result
contains no raw `<`, `>` or `\"`; moreover every `&` in the result starts
one of the introduced named entities
(`amp`/`lt`/`gt`/`quot`/`curren`/`auml`). -/
theorem escapexml_no_raw_specials (x : List Char) :
    ¬ '<' ∈ escapexml x ∧ ¬ '>' ∈ escapexml x ∧ ¬ '\"' ∈ escapexml x ∧
      ampOk (escapexml x) = true := by
  refine ⟨?_, ?_, ?_, ?_⟩
  · exact not_mem_escapexml x '<' (by decide) (by decide) (fun c => (esc4_no_specials c).1)
  · exact not_mem_escapexml x '>' (by decide) (by decide) (fun c => (esc4_no_specials c).2.1)
  · exact not_mem_escapexml x '\"' (by decide) (by decide) (fun c => (esc4_no_specials c).2.2)
  · rw [escapexml_eq]
    exact ampOk_flatMap_repl6 _
      (ampOk_replaceCurren _ (ampOk_flatMap_pieces esc4 ampOk_esc4 x))

/-! ### the main loop over several directories -/

theorem foldl_mainStep (render : List Rec → List Char)
    (dirs : List (List (List Char × List Char))) :
    ∀ w : WState,
      (dirs.foldl (mainStep render) w).out =
        w.out ++ (dirs.map fun d => render (processdir d)).flatten := by
  induction dirs with
  | nil => intro w; simp
  | cons d ds ih =>
    intro w
    rw [List.foldl_cons, ih, List.map_cons, List.flatten_cons]
    show (w.out ++ render (processdir d)) ++ _ = _
    rw [List.append_assoc]

/-- **C8.**  Each input directory is aggregated and sorted independently,
and the output file is the concatenation of the per-directory renderings in
the order the directories were given: records are never merged or re-sorted
across directory boundaries. -/
theorem dirs_processed_independently (render : List Rec → List Char)
    (dirs : List (List (List Char × List Char))) :
    mainLoop render dirs = (dirs.map fun d => render (processdir d)).flatten ∧
      ∀ d, List.Sorted dateLe (processdir d) := by
  constructor
  · unfold mainLoop
    rw [foldl_mainStep]
    rfl
  · intro d
    exact List.sorted_insertionSort dateLe _

/-- **C10.**  With the XML writer and `N` input directories, the output file
is the concatenation of `N` complete `<messages>...</messages>` documents,
one per directory; for `N ≥ 2` the text `</messages><messages>` occurs, so
a root element's closing tag is followed by further element content and the
combined output is not one single-rooted well-formed XML document. -/
theorem xml_multiple_roots (dirs : List (List (List Char × List Char)))
    (h : 2 ≤ dirs.length) :
    mainLoop XMLWriter.write dirs =
        (dirs.map fun d =>
          "<messages>".toList ++ ((processdir d).map xmlTemplate).flatten ++
            "</messages>".toList).flatten ∧
      "</messages><messages>".toList <:+: mainLoop XMLWriter.write dirs := by
  have heq : mainLoop XMLWriter.write dirs =
      (dirs.map fun d => XMLWriter.write (processdir d)).flatten := by
    unfold mainLoop
    rw [foldl_mainStep]
    rfl
  refine ⟨heq, ?_⟩
  match dirs, h with
  | d1 :: d2 :: rest, _ =>
    rw [heq]
    refine ⟨"<messages>".toList ++ ((processdir d1).map xmlTemplate).flatten,
      ((processdir d2).map xmlTemplate).flatten ++ "</messages>".toList ++
        (rest.map fun d => XMLWriter.write (processdir d)).flatten, ?_⟩
    have hq : "</messages><messages>".toList =
        "</messages>".toList ++ "<messages>".toList := by decide
    rw [hq, List.map_cons, List.map_cons, List.flatten_cons, List.flatten_cons]
    unfold XMLWriter.write
    simp only [List.append_assoc]

/-- witness for the multi-directory XML shape at two (empty) directories. -/
theorem xml_multiple_roots_witness :
    2 ≤ ([[], []] : List (List (List Char × List Char))).length ∧
      (mainLoop XMLWriter.write [[], []] =
          (([[], []] : List (List (List Char × List Char))).map fun d =>
            "<messages>".toList ++ ((processdir d).map xmlTemplate).flatten ++
              "</messages>".toList).flatten ∧
        "</messages><messages>".toList <:+: mainLoop XMLWriter.write [[], []]) :=
  ⟨by decide, xml_multiple_roots [[], []] (by decide)⟩

/-! ### leftmost-match reasoning for the three scanners -/

theorem scanAux_hit {f : List Char → Option β} {l : List Char} {v : β}
    (h : f l = some v) : scanAux f l = some v := by
  cases l with
  | nil => exact h
  | cons c cs =>
    show (f (c :: cs)).or _ = _
    rw [h]
    rfl

theorem scanAux_cons_none {f : List Char → Option β} {c : Char} {cs : List Char}
    (h : f (c :: cs) = none) : scanAux f (c :: cs) = scanAux f cs := by
  show (f (c :: cs)).or _ = _
  rw [h, Option.none_or]

theorem scanAux_append_heads {f : List Char → Option β} (a b : List Char)
    (h : ∀ c ∈ a, ∀ cs, f (c :: cs) = none) :
    scanAux f (a ++ b) = scanAux f b := by
  induction a with
  | nil => rfl
  | cons c a' ih =>
    rw [List.cons_append, scanAux_cons_none (h c (List.mem_cons_self c a') _),
      ih fun c hc => h c (List.mem_cons_of_mem _ hc)]

theorem not_isPrefixOf_of_head_ne {p c : Char} {ps cs : List Char} (h : p ≠ c) :
    (p :: ps).isPrefixOf (c :: cs) = false := by
  rw [List.isPrefixOf_cons₂]
  rw [show (p == c) = false from beq_eq_false_iff_ne.mpr h, Bool.false_and]

theorem tryTel_head_ne {c : Char} (cs : List Char) (h : c ≠ 'T') :
    tryTel (c :: cs) = none := by
  have hp : ("TEL:".toList.isPrefixOf (c :: cs)) = false := by
    rw [show "TEL:".toList = 'T' :: "EL:".toList from rfl]
    exact not_isPrefixOf_of_head_ne fun he => h he.symm
  rw [tryTel, if_neg (by rw [hp]; decide)]

theorem tryNok_head_ne {c : Char} (cs : List Char) (h : c ≠ 'X') :
    tryNok (c :: cs) = none := by
  have hp : ("X-NOK-DT:".toList.isPrefixOf (c :: cs)) = false := by
    rw [show "X-NOK-DT:".toList = 'X' :: "-NOK-DT:".toList from rfl]
    exact not_isPrefixOf_of_head_ne fun he => h he.symm
  rw [tryNok, if_neg (by rw [hp]; decide)]

theorem tryBody_head_ne {c : Char} (cs : List Char) (h : c ≠ 'D') :
    tryBody (c :: cs) = none := by
  have hp : ("Date:".toList.isPrefixOf (c :: cs)) = false := by
    rw [show "Date:".toList = 'D' :: "ate:".toList from rfl]
    exact not_isPrefixOf_of_head_ne fun he => h he.symm
  rw [tryBody, if_neg (by rw [hp]; decide)]

theorem tryBody_two {c1 c2 : Char} (cs : List Char) (h : ¬(c1 = 'D' ∧ c2 = 'a')) :
    tryBody (c1 :: c2 :: cs) = none := by
  have hp : ¬ ("Date:".toList.isPrefixOf (c1 :: c2 :: cs) = true) := by
    intro hpre
    rw [List.isPrefixOf_iff_prefix] at hpre
    have h0 := @List.IsPrefix.getElem _ _ _ hpre 0 (by decide)
    have h1 := @List.IsPrefix.getElem _ _ _ hpre 1 (by decide)
    exact h ⟨h0.symm, h1.symm⟩
  rw [tryBody, if_neg hp]

theorem tryNok_in_word {c : Char} {a b : List Char} (_hc : isWordChar c = true)
    (ha : ∀ d ∈ a, isWordChar d = true) : tryNok (c :: (a ++ '\n' :: b)) = none := by
  have hp : ¬ ("X-NOK-DT:".toList.isPrefixOf (c :: (a ++ '\n' :: b)) = true) := by
    intro hpre
    rw [List.isPrefixOf_iff_prefix] at hpre
    have h1 := @List.IsPrefix.getElem _ _ _ hpre 1 (by decide)
    cases a with
    | nil => exact absurd (show ('-' : Char) = '\n' from h1) (by decide)
    | cons d a' =>
      have hd := ha d (List.mem_cons_self d a')
      rw [show (c :: ((d :: a') ++ '\n' :: b))[1] = d from rfl] at h1
      rw [← h1] at hd
      exact absurd hd (by decide)
  rw [tryNok, if_neg hp]

theorem tryBody_in_word {c : Char} {a b : List Char} (_hc : isWordChar c = true)
    (ha : ∀ d ∈ a, isWordChar d = true) : tryBody (c :: (a ++ '\n' :: b)) = none := by
  have hp : ¬ ("Date:".toList.isPrefixOf (c :: (a ++ '\n' :: b)) = true) := by
    intro hpre
    rw [List.isPrefixOf_iff_prefix] at hpre
    match a, ha with
    | [], _ =>
      have h1 := @List.IsPrefix.getElem _ _ _ hpre 1 (by decide)
      exact absurd (show ('a' : Char) = '\n' from h1) (by decide)
    | [a0], _ =>
      have h2 := @List.IsPrefix.getElem _ _ _ hpre 2 (by decide)
      exact absurd (show ('t' : Char) = '\n' from h2) (by decide)
    | [a0, a1], _ =>
      have h3 := @List.IsPrefix.getElem _ _ _ hpre 3 (by decide)
      exact absurd (show ('e' : Char) = '\n' from h3) (by decide)
    | [a0, a1, a2], _ =>
      have h4 := @List.IsPrefix.getElem _ _ _ hpre 4 (by decide)
      exact absurd (show (':' : Char) = '\n' from h4) (by decide)
    | a0 :: a1 :: a2 :: a3 :: _rest, ha =>
      have h4 := @List.IsPrefix.getElem _ _ _ hpre 4 (by decide)
      have hw := ha a3 (by simp)
      rw [show (c :: ((a0 :: a1 :: a2 :: a3 :: _rest) ++ '\n' :: b))[4] = a3 from rfl] at h4
      rw [← h4] at hw
      exact absurd hw (by decide)
  rw [tryBody, if_neg hp]

theorem scan_nok_skip_word :
    ∀ (a b : List Char), (∀ c ∈ a, isWordChar c = true) →
      scanAux tryNok (a ++ '\n' :: b) = scanAux tryNok b
  | [], b, _ => by
    rw [List.nil_append, scanAux_cons_none (tryNok_head_ne _ (by decide))]
  | c :: a', b, h => by
    rw [List.cons_append,
      scanAux_cons_none
        (tryNok_in_word (h c (List.mem_cons_self c a'))
          fun d hd => h d (List.mem_cons_of_mem _ hd)),
      scan_nok_skip_word a' b fun d hd => h d (List.mem_cons_of_mem _ hd)]

theorem scan_body_skip_word :
    ∀ (a b : List Char), (∀ c ∈ a, isWordChar c = true) →
      scanAux tryBody (a ++ '\n' :: b) = scanAux tryBody b
  | [], b, _ => by
    rw [List.nil_append, scanAux_cons_none (tryBody_head_ne _ (by decide))]
  | c :: a', b, h => by
    rw [List.cons_append,
      scanAux_cons_none
        (tryBody_in_word (h c (List.mem_cons_self c a'))
          fun d hd => h d (List.mem_cons_of_mem _ hd)),
      scan_body_skip_word a' b fun d hd => h d (List.mem_cons_of_mem _ hd)]

/-! ### positive matches at the marker positions -/

theorem takeWhile_all_cons_neg {p : Char → Bool} {a : List Char} {x : Char} (b : List Char)
    (ha : ∀ c ∈ a, p c = true) (hx : p x = false) :
    (a ++ x :: b).takeWhile p = a := by
  rw [List.takeWhile_append_of_pos ha, List.takeWhile_cons_of_neg (by simp [hx]),
    List.append_nil]

theorem tryTel_hit_word {tel rest : List Char} (h1 : tel ≠ [])
    (h2 : ∀ c ∈ tel, isWordChar c = true) :
    tryTel ("TEL:".toList ++ (tel ++ '\n' :: rest)) = some tel := by
  rw [tryTel,
    if_pos (by rw [List.isPrefixOf_iff_prefix]; exact List.prefix_append _ _),
    List.drop_left' (by decide)]
  match tel, h1, h2 with
  | c :: cs, _, h2 =>
    rw [List.cons_append]
    show (if isWordChar c then _ else _) = _
    rw [if_pos (h2 c (List.mem_cons_self c cs)),
      takeWhile_all_cons_neg rest (fun d hd => h2 d (List.mem_cons_of_mem _ hd)) (by decide)]

theorem tryTel_hit_plus {ds rest : List Char} (h1 : ds ≠ [])
    (h2 : ∀ c ∈ ds, c.isDigit = true) :
    tryTel ("TEL:".toList ++ (('+' :: ds) ++ '\n' :: rest)) = some ('+' :: ds) := by
  rw [tryTel,
    if_pos (by rw [List.isPrefixOf_iff_prefix]; exact List.prefix_append _ _),
    List.drop_left' (by decide)]
  match ds, h1, h2 with
  | d :: ds', _, h2 =>
    rw [List.cons_append, List.cons_append]
    show (if isWordChar '+' then _ else _) = _
    rw [if_neg (by decide)]
    show (if '+' = '+' then _ else _) = _
    rw [if_pos rfl]
    show (if d.isDigit then _ else _) = _
    rw [if_pos (h2 d (List.mem_cons_self d ds')),
      takeWhile_all_cons_neg rest (fun c hc => h2 c (List.mem_cons_of_mem _ hc)) (by decide)]

theorem tryNok_hit {dt rest : List Char} (h1 : dt ≠ [])
    (h2 : ∀ c ∈ dt, isNokChar c = true) :
    tryNok ("X-NOK-DT:".toList ++ (dt ++ '\n' :: rest)) = some dt := by
  rw [tryNok,
    if_pos (by rw [List.isPrefixOf_iff_prefix]; exact List.prefix_append _ _),
    List.drop_left' (by decide)]
  match dt, h1, h2 with
  | c :: cs, _, h2 =>
    rw [List.cons_append]
    show (if isNokChar c then _ else _) = _
    rw [if_pos (h2 c (List.mem_cons_self c cs)),
      takeWhile_all_cons_neg rest (fun d hd => h2 d (List.mem_cons_of_mem _ hd)) (by decide)]

theorem lastSplit_cons (pat : List Char) (c : Char) (cs : List Char) :
    lastSplit pat (c :: cs) =
      match lastSplit pat cs with
      | some (b, a) => some (c :: b, a)
      | none =>
        if pat.isPrefixOf (c :: cs) then some ([], (c :: cs).drop pat.length) else none := rfl

theorem lastSplit_endvbody :
    ∀ body : List Char,
      lastSplit "END:VBODY".toList (body ++ "END:VBODY\nEND:VMSG\n".toList) =
        some (body, "\nEND:VMSG\n".toList)
  | [] => by decide
  | c :: body' => by
    rw [List.cons_append, lastSplit_cons, lastSplit_endvbody body']

theorem tryBody_hit {dateline body : List Char} (h1 : dateline ≠ [])
    (h2 : ∀ c ∈ dateline, isDateChar c = true) :
    tryBody ("Date:".toList ++
        (dateline ++ '\n' :: (body ++ "END:VBODY\nEND:VMSG\n".toList))) = some body := by
  have hdrop :
      ("Date:".toList ++
          (dateline ++ '\n' :: (body ++ "END:VBODY\nEND:VMSG\n".toList))).drop 5 =
        dateline ++ '\n' :: (body ++ "END:VBODY\nEND:VMSG\n".toList) :=
    List.drop_left' (by decide)
  rw [tryBody,
    if_pos (by rw [List.isPrefixOf_iff_prefix]; exact List.prefix_append _ _),
    hdrop, takeWhile_all_cons_neg _ h2 (by decide),
    if_neg (by simp [List.isEmpty_iff, h1]), List.drop_left]
  show (lastSplit "END:VBODY".toList (body ++ "END:VBODY\nEND:VMSG\n".toList)).map _ = _
  rw [lastSplit_endvbody body]
  rfl

/-! ### `strptime` on a canonical zero-padded token -/

theorem dchar_isDigit {k : Nat} (hk : k ≤ 9) : (Char.ofNat (48 + k)).isDigit = true := by
  interval_cases k <;> decide

theorem digVal_dchar {k : Nat} (hk : k ≤ 9) : digVal (Char.ofNat (48 + k)) = k := by
  interval_cases k <;> decide

theorem candY_pad4 {y : Nat} (hy : y ≤ 9999) (R : List Char) :
    candY (pad4 y ++ R) = [(y, R)] := by
  have h1 : y / 1000 % 10 ≤ 9 := Nat.le_of_lt_succ (Nat.mod_lt _ (by norm_num))
  have h2 : y / 100 % 10 ≤ 9 := Nat.le_of_lt_succ (Nat.mod_lt _ (by norm_num))
  have h3 : y / 10 % 10 ≤ 9 := Nat.le_of_lt_succ (Nat.mod_lt _ (by norm_num))
  have h4 : y % 10 ≤ 9 := Nat.le_of_lt_succ (Nat.mod_lt _ (by norm_num))
  rw [show pad4 y ++ R =
      Char.ofNat (48 + y / 1000 % 10) :: Char.ofNat (48 + y / 100 % 10) ::
        Char.ofNat (48 + y / 10 % 10) :: Char.ofNat (48 + y % 10) :: R from rfl]
  show (if _ then _ else _) = _
  rw [dchar_isDigit h1, dchar_isDigit h2, dchar_isDigit h3, dchar_isDigit h4]
  rw [if_pos (by decide)]
  rw [digVal_dchar h1, digVal_dchar h2, digVal_dchar h3, digVal_dchar h4]
  have : y / 1000 % 10 * 1000 + y / 100 % 10 * 100 + y / 10 % 10 * 10 + y % 10 = y := by
    omega
  rw [this]

theorem candM_pad2 {mo : Nat} (h1 : 1 ≤ mo) (h2 : mo ≤ 12) (R : List Char) :
    ∃ tail, candM (pad2 mo ++ R) = (mo, R) :: tail := by
  interval_cases mo <;> exact ⟨_, rfl⟩

theorem candD_pad2 {d : Nat} (h1 : 1 ≤ d) (h2 : d ≤ 31) (R : List Char) :
    ∃ tail, candD (pad2 d ++ R) = (d, R) :: tail := by
  interval_cases d <;> exact ⟨_, rfl⟩

theorem candH_pad2 {h : Nat} (h2 : h ≤ 23) (R : List Char) :
    ∃ tail, candH (pad2 h ++ R) = (h, R) :: tail := by
  interval_cases h <;> exact ⟨_, rfl⟩

theorem candMin_pad2 {mi : Nat} (h2 : mi ≤ 59) (R : List Char) :
    ∃ tail, candMin (pad2 mi ++ R) = (mi, R) :: tail := by
  interval_cases mi <;> exact ⟨_, rfl⟩

theorem candS_pad2 {s : Nat} (h2 : s ≤ 59) (R : List Char) :
    ∃ tail, candS (pad2 s ++ R) = (s, R) :: tail := by
  interval_cases s <;> exact ⟨_, rfl⟩

theorem findSome?_head {f : α → Option β} {a : α} {v : β} (l : List α)
    (h : f a = some v) : (a :: l).findSome? f = some v := by
  rw [List.findSome?_cons, h]

theorem strptimeMatch_canonical {y mo d h mi s : Nat} (hy : y ≤ 9999)
    (hmo1 : 1 ≤ mo) (hmo2 : mo ≤ 12) (hd1 : 1 ≤ d) (hd2 : d ≤ 31)
    (hh : h ≤ 23) (hmi : mi ≤ 59) (hs : s ≤ 59) :
    strptimeMatch (dtTok y mo d h mi s) = some ⟨y, mo, d, h, mi, s⟩ := by
  obtain ⟨tM, hM⟩ :=
    candM_pad2 hmo1 hmo2 (pad2 d ++ 'T' :: (pad2 h ++ (pad2 mi ++ (pad2 s ++ ['Z']))))
  obtain ⟨tD, hD⟩ := candD_pad2 hd1 hd2 ('T' :: (pad2 h ++ (pad2 mi ++ (pad2 s ++ ['Z']))))
  obtain ⟨tH, hH⟩ := candH_pad2 hh (pad2 mi ++ (pad2 s ++ ['Z']))
  obtain ⟨tMin, hMin⟩ := candMin_pad2 hmi (pad2 s ++ ['Z'])
  obtain ⟨tS, hS⟩ := candS_pad2 hs ['Z']
  rw [strptimeMatch,
    show dtTok y mo d h mi s =
        pad4 y ++ (pad2 mo ++ (pad2 d ++ 'T' :: (pad2 h ++ (pad2 mi ++ (pad2 s ++ ['Z'])))))
      from by simp [dtTok, List.append_assoc],
    candY_pad4 hy]
  apply findSome?_head
  show (candM _).findSome? _ = _
  rw [hM]
  apply findSome?_head
  show (candD _).findSome? _ = _
  rw [hD]
  apply findSome?_head
  show (candH _).findSome? _ = _
  rw [hH]
  apply findSome?_head
  show (candMin _).findSome? _ = _
  rw [hMin]
  apply findSome?_head
  show (candS _).findSome? _ = _
  rw [hS]
  apply findSome?_head
  show (if _ then _ else _) = _
  rw [if_pos rfl]

theorem daysInMonth_le_31 (y mo : Nat) : daysInMonth y mo ≤ 31 := by
  unfold daysInMonth
  split_ifs <;> omega

theorem strptime_canonical {y mo d h mi s : Nat}
    (hy1 : 1 ≤ y) (hy2 : y ≤ 9999) (hmo1 : 1 ≤ mo) (hmo2 : mo ≤ 12)
    (hd1 : 1 ≤ d) (hden : d ≤ daysInMonth y mo)
    (hh : h ≤ 23) (hmi : mi ≤ 59) (hs : s ≤ 59) :
    strptime (dtTok y mo d h mi s) = some ⟨y, mo, d, h, mi, s⟩ := by
  have hd2 : d ≤ 31 := hden.trans (daysInMonth_le_31 y mo)
  rw [strptime, strptimeMatch_canonical hy2 hmo1 hmo2 hd1 hd2 hh hmi hs]
  show (if validDT _ then _ else _) = _
  rw [if_pos (by simp [validDT, hy1, hd1, hden, hs])]

/-! ### extraction on a generic well-formed `.vmg` file -/

theorem isWordChar_of_digit {c : Char} (h : c.isDigit = true) : isWordChar c = true := by
  simp [isWordChar, Char.isAlphanum, h]

theorem isWordChar_of_nok {c : Char} (h : isNokChar c = true) : isWordChar c = true := by
  simp only [isNokChar, Bool.or_eq_true, decide_eq_true_eq] at h
  rcases h with (h | h) | h
  · exact isWordChar_of_digit h
  · subst h; decide
  · subst h; decide

theorem ne_nul_of_word {c : Char} (h : isWordChar c = true) : c ≠ '\x00' := by
  intro he; subst he; exact absurd h (by decide)

theorem ne_nul_of_digit {c : Char} (h : c.isDigit = true) : c ≠ '\x00' := by
  intro he; subst he; exact absurd h (by decide)

theorem ne_nul_of_nok {c : Char} (h : isNokChar c = true) : c ≠ '\x00' := by
  intro he; subst he; exact absurd h (by decide)

theorem ne_nul_of_date {c : Char} (h : isDateChar c = true) : c ≠ '\x00' := by
  intro he; subst he; exact absurd h (by decide)

theorem stripNul_eq_self {l : List Char} (h : ∀ c ∈ l, c ≠ '\x00') : stripNul l = l := by
  rw [stripNul, List.filter_eq_self]
  intro a ha
  simpa using h a ha

theorem telOk_no_nul {tel : List Char} (htel : telOk tel) : ∀ c ∈ tel, c ≠ '\x00' := by
  rcases htel with ⟨-, hw⟩ | ⟨ds, rfl, -, hd⟩
  · exact fun c hc => ne_nul_of_word (hw c hc)
  · refine List.forall_mem_cons.mpr ⟨by decide, ?_⟩
    exact fun c hc => ne_nul_of_digit (hd c hc)

theorem pad2_digit {n : Nat} : ∀ c ∈ pad2 n, c.isDigit = true := by
  have h1 : n / 10 % 10 ≤ 9 := Nat.le_of_lt_succ (Nat.mod_lt _ (by norm_num))
  have h2 : n % 10 ≤ 9 := Nat.le_of_lt_succ (Nat.mod_lt _ (by norm_num))
  intro c hc
  rcases List.mem_cons.mp hc with rfl | hc
  · exact dchar_isDigit h1
  · rcases List.mem_cons.mp hc with rfl | hc
    · exact dchar_isDigit h2
    · exact absurd hc (List.not_mem_nil c)

theorem pad4_digit {n : Nat} : ∀ c ∈ pad4 n, c.isDigit = true := by
  have h1 : n / 1000 % 10 ≤ 9 := Nat.le_of_lt_succ (Nat.mod_lt _ (by norm_num))
  have h2 : n / 100 % 10 ≤ 9 := Nat.le_of_lt_succ (Nat.mod_lt _ (by norm_num))
  have h3 : n / 10 % 10 ≤ 9 := Nat.le_of_lt_succ (Nat.mod_lt _ (by norm_num))
  have h4 : n % 10 ≤ 9 := Nat.le_of_lt_succ (Nat.mod_lt _ (by norm_num))
  intro c hc
  simp only [pad4, List.mem_cons, List.not_mem_nil, or_false] at hc
  rcases hc with rfl | rfl | rfl | rfl
  · exact dchar_isDigit h1
  · exact dchar_isDigit h2
  · exact dchar_isDigit h3
  · exact dchar_isDigit h4

theorem dtTok_nok {y mo d h mi s : Nat} :
    ∀ c ∈ dtTok y mo d h mi s, isNokChar c = true := by
  intro c hc
  have hdig : ∀ x : Char, x.isDigit = true → isNokChar x = true := by
    intro x hx; simp [isNokChar, hx]
  simp only [dtTok, List.mem_append, List.mem_cons, List.not_mem_nil, or_false] at hc
  rcases hc with ((hc | hc) | hc) | rfl | ((hc | hc) | hc) | rfl
  · exact hdig c (pad4_digit c hc)
  · exact hdig c (pad2_digit c hc)
  · exact hdig c (pad2_digit c hc)
  · decide
  · exact hdig c (pad2_digit c hc)
  · exact hdig c (pad2_digit c hc)
  · exact hdig c (pad2_digit c hc)
  · decide

theorem dtTok_ne_nil {y mo d h mi s : Nat} : dtTok y mo d h mi s ≠ [] := by
  simp [dtTok, pad4]

theorem mkVmg_no_nul {tel dt dateline body : List Char}
    (h1 : ∀ c ∈ tel, c ≠ '\x00') (h2 : ∀ c ∈ dt, c ≠ '\x00')
    (h3 : ∀ c ∈ dateline, c ≠ '\x00') (h4 : ∀ c ∈ body, c ≠ '\x00') :
    ∀ c ∈ mkVmg tel dt dateline body, c ≠ '\x00' := by
  rw [mkVmg]
  simp only [List.append_assoc]
  refine List.forall_mem_append.mpr ⟨by decide, ?_⟩
  refine List.forall_mem_append.mpr ⟨h1, ?_⟩
  refine List.forall_mem_cons.mpr ⟨by decide, ?_⟩
  refine List.forall_mem_append.mpr ⟨by decide, ?_⟩
  refine List.forall_mem_append.mpr ⟨h2, ?_⟩
  refine List.forall_mem_cons.mpr ⟨by decide, ?_⟩
  refine List.forall_mem_append.mpr ⟨by decide, ?_⟩
  refine List.forall_mem_append.mpr ⟨h3, ?_⟩
  refine List.forall_mem_cons.mpr ⟨by decide, ?_⟩
  exact List.forall_mem_append.mpr ⟨h4, by decide⟩

theorem mkVmg_tel_scan {tel : List Char} (htel : telOk tel) (dt dateline body : List Char) :
    scanAux tryTel (mkVmg tel dt dateline body) = some tel := by
  rw [mkVmg,
    show "BEGIN:VMSG\nTEL:".toList = "BEGIN:VMSG\n".toList ++ "TEL:".toList from rfl]
  simp only [List.append_assoc]
  rw [scanAux_append_heads _ _
    fun c hc cs => tryTel_head_ne cs ((by decide : ∀ c ∈ "BEGIN:VMSG\n".toList, c ≠ 'T') c hc)]
  rcases htel with ⟨h1, h2⟩ | ⟨ds, rfl, h1, h2⟩
  · exact scanAux_hit (tryTel_hit_word h1 h2)
  · exact scanAux_hit (tryTel_hit_plus h1 h2)

theorem mkVmg_nok_scan {tel : List Char} (htel : telOk tel) {dt : List Char}
    (hdt1 : dt ≠ []) (hdt2 : ∀ c ∈ dt, isNokChar c = true) (dateline body : List Char) :
    scanAux tryNok (mkVmg tel dt dateline body) = some dt := by
  rw [mkVmg]
  simp only [List.append_assoc]
  rw [scanAux_append_heads "BEGIN:VMSG\nTEL:".toList _
    fun c hc cs => tryNok_head_ne cs
      ((by decide : ∀ c ∈ "BEGIN:VMSG\nTEL:".toList, c ≠ 'X') c hc)]
  have hhit : scanAux tryNok ("X-NOK-DT:".toList ++
      (dt ++ '\n' :: ("BEGIN:VBODY\nDate:".toList ++
        (dateline ++ '\n' :: (body ++ "END:VBODY\nEND:VMSG\n".toList))))) = some dt :=
    scanAux_hit (tryNok_hit hdt1 hdt2)
  rcases htel with ⟨-, h2⟩ | ⟨ds, rfl, -, h2⟩
  · rw [scan_nok_skip_word tel _ h2]
    exact hhit
  · rw [List.cons_append, scanAux_cons_none (tryNok_head_ne _ (by decide)),
      scan_nok_skip_word ds _ fun c hc => isWordChar_of_digit (h2 c hc)]
    exact hhit

theorem mkVmg_body_scan {tel : List Char} (htel : telOk tel) {dt : List Char}
    (hdt2 : ∀ c ∈ dt, isNokChar c = true) {dateline : List Char}
    (hdl1 : dateline ≠ []) (hdl2 : ∀ c ∈ dateline, isDateChar c = true)
    (body : List Char) :
    scanAux tryBody (mkVmg tel dt dateline body) = some body := by
  rw [mkVmg]
  simp only [List.append_assoc]
  rw [scanAux_append_heads "BEGIN:VMSG\nTEL:".toList _
    fun c hc cs => tryBody_head_ne cs
      ((by decide : ∀ c ∈ "BEGIN:VMSG\nTEL:".toList, c ≠ 'D') c hc)]
  have hrest : scanAux tryBody ("X-NOK-DT:".toList ++
      (dt ++ '\n' :: ("BEGIN:VBODY\nDate:".toList ++
        (dateline ++ '\n' :: (body ++ "END:VBODY\nEND:VMSG\n".toList))))) = some body := by
    rw [show ("X-NOK-DT:".toList ++
        (dt ++ '\n' :: ("BEGIN:VBODY\nDate:".toList ++
          (dateline ++ '\n' :: (body ++ "END:VBODY\nEND:VMSG\n".toList))))) =
        "X-NOK-".toList ++ ('D' :: ('T' :: (':' ::
          (dt ++ '\n' :: ("BEGIN:VBODY\nDate:".toList ++
            (dateline ++ '\n' :: (body ++ "END:VBODY\nEND:VMSG\n".toList))))))) from rfl]
    rw [scanAux_append_heads "X-NOK-".toList _
      fun c hc cs => tryBody_head_ne cs
        ((by decide : ∀ c ∈ "X-NOK-".toList, c ≠ 'D') c hc)]
    rw [scanAux_cons_none (tryBody_two _ (by decide))]
    rw [scanAux_cons_none (tryBody_head_ne _ (by decide))]
    rw [scanAux_cons_none (tryBody_head_ne _ (by decide))]
    rw [scan_body_skip_word dt _ fun c hc => isWordChar_of_nok (hdt2 c hc)]
    rw [show ("BEGIN:VBODY\nDate:".toList ++
        (dateline ++ '\n' :: (body ++ "END:VBODY\nEND:VMSG\n".toList))) =
        "BEGIN:VBO".toList ++ ('D' :: ('Y' :: ('\n' ::
          ("Date:".toList ++
            (dateline ++ '\n' :: (body ++ "END:VBODY\nEND:VMSG\n".toList)))))) from rfl]
    rw [scanAux_append_heads "BEGIN:VBO".toList _
      fun c hc cs => tryBody_head_ne cs
        ((by decide : ∀ c ∈ "BEGIN:VBO".toList, c ≠ 'D') c hc)]
    rw [scanAux_cons_none (tryBody_two _ (by decide))]
    rw [scanAux_cons_none (tryBody_head_ne _ (by decide))]
    rw [scanAux_cons_none (tryBody_head_ne _ (by decide))]
    exact scanAux_hit (tryBody_hit hdl1 hdl2)
  rcases htel with ⟨-, h2⟩ | ⟨ds, rfl, -, h2⟩
  · rw [scan_body_skip_word tel _ h2]
    exact hrest
  · rw [List.cons_append, scanAux_cons_none (tryBody_head_ne _ (by decide)),
      scan_body_skip_word ds _ fun c hc => isWordChar_of_digit (h2 c hc)]
    exact hrest

/-- **C1.**  On a source file carrying all four well-formed markers,
extraction recovers exactly the delimited substrings: the contact is the
`TEL:` token, the `X-NOK-DT:` token `YYYYMMDDTHHMMSSZ` parses and formats
to `YYYY-MM-DD HH:MM:SS`, and the body is the text between the `Date:`
line and the end-of-body marker. -/
theorem extract_wellformed_markers
    (tel dateline body f : List Char) (y mo d h mi s : Nat)
    (htel : telOk tel)
    (hdl1 : dateline ≠ []) (hdl2 : ∀ c ∈ dateline, isDateChar c = true)
    (hbody : ∀ c ∈ body, c ≠ '\x00')
    (hy1 : 1 ≤ y) (hy2 : y ≤ 9999) (hmo1 : 1 ≤ mo) (hmo2 : mo ≤ 12)
    (hd1 : 1 ≤ d) (hden : d ≤ daysInMonth y mo)
    (hh : h ≤ 23) (hmi : mi ≤ 59) (hs : s ≤ 59) :
    processFile f (mkVmg tel (dtTok y mo d h mi s) dateline body) =
      { contact := tel, date := strftime ⟨y, mo, d, h, mi, s⟩, body := body, file := f } := by
  have hstrip : stripNul (mkVmg tel (dtTok y mo d h mi s) dateline body) =
      mkVmg tel (dtTok y mo d h mi s) dateline body :=
    stripNul_eq_self (mkVmg_no_nul (telOk_no_nul htel)
      (fun c hc => ne_nul_of_nok (dtTok_nok c hc))
      (fun c hc => ne_nul_of_date (hdl2 c hc)) hbody)
  have hc := mkVmg_tel_scan htel (dtTok y mo d h mi s) dateline body
  have hn := mkVmg_nok_scan htel (@dtTok_ne_nil y mo d h mi s) (@dtTok_nok y mo d h mi s)
    dateline body
  have hb := mkVmg_body_scan htel (@dtTok_nok y mo d h mi s) hdl1 hdl2 body
  have hp := strptime_canonical hy1 hy2 hmo1 hmo2 hd1 hden hh hmi hs
  simp [processFile, process, hstrip, hc, hn, hb, hp]

/-- witness for the extraction theorem at the spec's own example values:
`TEL:+19995550123` and `X-NOK-DT:20080526T124232Z`. -/
theorem extract_wellformed_markers_witness :
    telOk "+19995550123".toList ∧
      dtTok 2008 5 26 12 42 32 = "20080526T124232Z".toList ∧
      strftime ⟨2008, 5, 26, 12, 42, 32⟩ = "2008-05-26 12:42:32".toList ∧
      processFile "a.vmg".toList
          (mkVmg "+19995550123".toList (dtTok 2008 5 26 12 42 32)
            "26.05.2008 12:42:32".toList "hello\n".toList) =
        { contact := "+19995550123".toList,
          date := strftime ⟨2008, 5, 26, 12, 42, 32⟩,
          body := "hello\n".toList, file := "a.vmg".toList } :=
  ⟨Or.inr ⟨"19995550123".toList, rfl, by decide, by decide⟩, by decide, by decide,
    extract_wellformed_markers "+19995550123".toList "26.05.2008 12:42:32".toList
      "hello\n".toList "a.vmg".toList 2008 5 26 12 42 32
      (Or.inr ⟨"19995550123".toList, rfl, by decide, by decide⟩)
      (by decide) (by decide) (by decide) (by decide) (by decide) (by decide) (by decide)
      (by decide) (by decide) (by decide) (by decide) (by decide)⟩

/-! ### the body search: scan form versus declarative first/last form -/

theorem scanAux_eq_range_findSome? (f : List Char → Option β) :
    ∀ m : List Char,
      scanAux f m = (List.range (m.length + 1)).findSome? fun i => f (m.drop i)
  | [] => by
    cases hf : f [] <;>
      simp [scanAux, hf, show List.range 1 = [0] from rfl, List.findSome?_cons]
  | c :: cs => by
    rw [show (c :: cs).length + 1 = (cs.length + 1) + 1 from rfl, List.range_succ_eq_map,
      List.findSome?_cons]
    cases hf : f ((c :: cs).drop 0) with
    | none =>
      rw [show (c :: cs).drop 0 = c :: cs from rfl] at hf
      show (f (c :: cs)).or _ = _
      rw [hf, Option.none_or, scanAux_eq_range_findSome? f cs, List.findSome?_map]
      rfl
    | some b =>
      rw [show (c :: cs).drop 0 = c :: cs from rfl] at hf
      show (f (c :: cs)).or _ = _
      rw [hf]
      rfl

theorem occIdxs_cons (pat : List Char) (c : Char) (cs : List Char) :
    occIdxs pat (c :: cs) =
      (if pat.isPrefixOf (c :: cs) then [0] else []) ++ (occIdxs pat cs).map Nat.succ := by
  rw [occIdxs, occIdxs, show (c :: cs).length + 1 = (cs.length + 1) + 1 from rfl,
    List.range_succ_eq_map, List.filter_cons, List.filter_map]
  by_cases h : pat.isPrefixOf (c :: cs) = true
  · rw [if_pos (by simpa using h), if_pos h]
    rfl
  · rw [if_neg (by simpa using h), if_neg h]
    rfl

theorem lastSplit_eq_lastOcc (pat : List Char) (hne : pat ≠ []) :
    ∀ l : List Char,
      lastSplit pat l = (lastOcc pat l).map fun i => (l.take i, l.drop (i + pat.length))
  | [] => by
    match pat, hne with
    | p :: ps, _ =>
      rw [show lastSplit (p :: ps) [] = none from by rw [lastSplit]; rfl]
      rw [lastOcc, occIdxs]
      simp [List.range_succ, List.filter_cons, List.isPrefixOf]
  | c :: cs => by
    rw [lastSplit_cons, lastSplit_eq_lastOcc pat hne cs, lastOcc, lastOcc, occIdxs_cons,
      List.getLast?_append, List.getLast?_map]
    cases hocc : (occIdxs pat cs).getLast? with
    | some j =>
      have harith : j + 1 + pat.length = j + pat.length + 1 := by omega
      simp [harith]
    | none =>
      by_cases h : pat.isPrefixOf (c :: cs) = true
      · simp [h, Nat.zero_add]
      · simp [h]

theorem tryBody_eq_amended (m : List Char) : tryBody m = tryBodyAmended m := by
  rw [tryBody, tryBodyAmended]
  by_cases hA : "Date:".toList.isPrefixOf m = true
  · rw [if_pos hA, if_pos hA]
    by_cases hB : ((m.drop 5).takeWhile isDateChar).isEmpty = true
    · rw [if_pos hB, if_pos hB]
    · rw [if_neg hB, if_neg hB]
      split
      · rename_i tail heq
        rw [lastSplit_eq_lastOcc "END:VBODY".toList (by decide) tail, Option.map_map]
        rfl
      · rfl
  · rw [if_neg hA, if_neg hA]

/-- **C5 (counterexample).**  The claim as stated fails on the code:
`BODY_RE` is not anchored to a line start, and its greedy `(.*)` runs to
the LAST `END:VBODY`, not the first.  On `xDate:1\nA END:VBODY B END:VBODY`
the code extracts `A END:VBODY B ` while the claim's reading (`Date:` at a
line beginning, span ending at the end-of-body marker) yields no span at
all; on `Date:1\nA END:VBODY B END:VBODY` the claim's reading yields `A `
while the code extracts `A END:VBODY B `. -/
theorem bodyRE_claim_counterexample :
    scanAux tryBody "xDate:1\nA END:VBODY B END:VBODY".toList =
        some "A END:VBODY B ".toList ∧
      bodySpecClaim true "xDate:1\nA END:VBODY B END:VBODY".toList = none ∧
      scanAux tryBody "Date:1\nA END:VBODY B END:VBODY".toList =
        some "A END:VBODY B ".toList ∧
      bodySpecClaim true "Date:1\nA END:VBODY B END:VBODY".toList =
        some "A ".toList :=
  ⟨by decide, by decide, by decide, by decide⟩

/-- **C5 (amended).**  The extracted body is the match at the first (least)
position where `Date:` — anywhere in the text, not only at a line start —
is followed by one or more date-like characters and a newline, and the
match's text runs from after that newline to the LAST following occurrence
of `END:VBODY`; if no such position exists the result is empty.  The
scan-based search of the code equals this declaratively stated
(index-based) description on every input. -/
theorem body_search_eq_amended (m : List Char) :
    scanAux tryBody m = bodyAmended m := by
  rw [bodyAmended, ← scanAux_eq_range_findSome?,
    (funext tryBody_eq_amended : tryBody = tryBodyAmended)]

/-! ### the XML writer and the `[:-1]` truncation -/

theorem replaceCurren_ne_nil : ∀ {l : List Char}, l ≠ [] → replaceCurren l ≠ []
  | [], h => absurd rfl h
  | [c], _ => by rw [replaceCurren_single]; simp
  | c1 :: c2 :: rest, _ => by
    rw [replaceCurren_cons₂]
    by_cases hm : (decide (c1 = 'Â') && decide (c2 = '¤')) = true
    · rw [if_pos hm]
      simp
    · rw [if_neg hm]
      simp

theorem esc4_ne_nil (c : Char) : esc4 c ≠ [] := by
  rw [esc4]
  split_ifs <;> simp

theorem repl6_ne_nil (c : Char) : repl6 c ≠ [] := by
  rw [repl6]
  split_ifs <;> simp

theorem flatMap_ne_nil_of_pieces {f : Char → List Char} (hf : ∀ c, f c ≠ [])
    {l : List Char} (hl : l ≠ []) : l.flatMap f ≠ [] := by
  match l, hl with
  | c :: cs, _ =>
    rw [List.flatMap_cons]
    exact fun h => hf c (List.append_eq_nil.mp h).1

theorem replaceCurren_keeps_inner {q : List Char} (hq0 : q ≠ [])
    (hqA : ∀ c ∈ q, c ≠ 'Â') (hqB : ∀ c ∈ q, c ≠ '¤') :
    ∀ (x y : List Char), y ≠ [] →
      ∃ x' y', replaceCurren (x ++ (q ++ y)) = x' ++ (q ++ y') ∧ y' ≠ []
  | [], y, hy => by
    refine ⟨[], replaceCurren y, ?_, replaceCurren_ne_nil hy⟩
    rw [List.nil_append, List.nil_append, replaceCurren_append_of q y hqA]
  | [x0], y, hy => by
    match q, hq0, hqA, hqB with
    | q0 :: q', _, hqA, hqB =>
      have hm : ¬ ((decide (x0 = 'Â') && decide (q0 = '¤')) = true) := by
        simp only [Bool.and_eq_true, decide_eq_true_eq]
        rintro ⟨-, h⟩
        exact hqB q0 (List.mem_cons_self q0 q') h
      refine ⟨[x0], replaceCurren y, ?_, replaceCurren_ne_nil hy⟩
      rw [show [x0] ++ ((q0 :: q') ++ y) = x0 :: q0 :: (q' ++ y) from rfl,
        replaceCurren_cons₂, if_neg hm,
        show (q0 :: (q' ++ y)) = (q0 :: q') ++ y from rfl,
        replaceCurren_append_of (q0 :: q') y hqA]
      rfl
  | x0 :: x1 :: x'', y, hy => by
    by_cases hm : (decide (x0 = 'Â') && decide (x1 = '¤')) = true
    · obtain ⟨x', y', h1, h2⟩ := replaceCurren_keeps_inner hq0 hqA hqB x'' y hy
      refine ⟨"&curren;".toList ++ x', y', ?_, h2⟩
      rw [show (x0 :: x1 :: x'') ++ (q ++ y) = x0 :: x1 :: (x'' ++ (q ++ y)) from rfl,
        replaceCurren_cons₂, if_pos hm, h1, List.append_assoc]
    · obtain ⟨x', y', h1, h2⟩ := replaceCurren_keeps_inner hq0 hqA hqB (x1 :: x'') y hy
      refine ⟨x0 :: x', y', ?_, h2⟩
      rw [show (x0 :: x1 :: x'') ++ (q ++ y) = x0 :: x1 :: (x'' ++ (q ++ y)) from rfl,
        replaceCurren_cons₂, if_neg hm,
        show (x1 :: (x'' ++ (q ++ y))) = (x1 :: x'') ++ (q ++ y) from rfl, h1,
        List.cons_append]

set_option maxRecDepth 4000 in
/-- **C6 (counterexample).**  The XML writer renders
`escapexml(body)[:-1]`, dropping the final character of the escaped body.
For the retained record with body exactly `<script>` the rendered output
does not contain `&lt;script&gt;` (it ends in `&lt;script&gt`), so the
claim as stated is false. -/
theorem xml_escape_truncation_counterexample :
    "<script>".toList <:+:
        (⟨"5".toList, "1970-01-01 00:00:00".toList, "<script>".toList,
          "f.vmg".toList⟩ : Rec).body ∧
      keep ⟨"5".toList, "1970-01-01 00:00:00".toList, "<script>".toList,
        "f.vmg".toList⟩ = true ∧
      ¬ ("&lt;script&gt;".toList <:+:
        XMLWriter.write [⟨"5".toList, "1970-01-01 00:00:00".toList, "<script>".toList,
          "f.vmg".toList⟩]) :=
  ⟨by decide, by decide, by decide⟩

/-- **C6 (amended).**  Every occurrence of `&`, `<`, `>`, `\"` in a body is
escaped to its named entity in `escapexml(body)`, and the rendered body
element is `escapexml(body)` with its final character dropped; hence for
every record of the written list whose body contains `<script>` at any
position other than as a suffix, the XML output contains `&lt;script&gt;`
verbatim. -/
theorem xml_escapes_inner_script (msgs : List Rec) (r : Rec) (u v : List Char) (c : Char)
    (hmem : r ∈ msgs) (hbody : r.body = u ++ ("<script>".toList ++ (c :: v))) :
    "&lt;script&gt;".toList <:+: XMLWriter.write msgs := by
  have h1 : r.body.flatMap esc4 =
      u.flatMap esc4 ++ ("&lt;script&gt;".toList ++ (c :: v).flatMap esc4) := by
    rw [hbody, List.flatMap_append, List.flatMap_append,
      show "<script>".toList.flatMap esc4 = "&lt;script&gt;".toList from by decide]
  obtain ⟨x', y', h2, h2n⟩ :=
    replaceCurren_keeps_inner (q := "&lt;script&gt;".toList) (by decide)
      (by decide) (by decide) (u.flatMap esc4) ((c :: v).flatMap esc4)
      (flatMap_ne_nil_of_pieces esc4_ne_nil (by simp))
  have h3 : escapexml r.body =
      x'.flatMap repl6 ++ ("&lt;script&gt;".toList ++ y'.flatMap repl6) := by
    rw [escapexml_eq, h1, h2, List.flatMap_append, List.flatMap_append,
      flatMap_id_of repl6 "&lt;script&gt;".toList
        (fun c' hc' => by
          rw [repl6,
            if_neg ((by decide : ∀ x ∈ "&lt;script&gt;".toList, ¬ x = 'ä') c' hc')])]
  have h4 : (escapexml r.body).dropLast =
      x'.flatMap repl6 ++ ("&lt;script&gt;".toList ++ (y'.flatMap repl6).dropLast) := by
    rw [h3, List.dropLast_append_of_ne_nil, List.dropLast_append_of_ne_nil]
    · exact flatMap_ne_nil_of_pieces repl6_ne_nil h2n
    · simp [flatMap_ne_nil_of_pieces repl6_ne_nil h2n]
  have h5 : "&lt;script&gt;".toList <:+: xmlTemplate r := by
    rw [xmlTemplate, h4]
    refine ⟨"\n  <message>\n    <file>\n      ".toList ++ r.file ++
      "\n    </file>\n    <contact>".toList ++ r.contact ++
      "</contact>\n    <date>".toList ++ r.date ++
      "</date>\n    <body>\n      ".toList ++ x'.flatMap repl6,
      (y'.flatMap repl6).dropLast ++ "\n    </body>\n  </message>".toList, ?_⟩
    simp [List.append_assoc]
  obtain ⟨p, s, rfl⟩ := List.append_of_mem hmem
  refine h5.trans ⟨"<messages>".toList ++ ((p.map xmlTemplate).flatten),
    ((s.map xmlTemplate).flatten) ++ "</messages>".toList, ?_⟩
  rw [XMLWriter.write]
  simp [List.append_assoc]

/-- witness for the amended XML-escaping theorem: body `<script>!` (the
marker not at the very end). -/
theorem xml_escapes_inner_script_witness :
    ((⟨"5".toList, "1970-01-01 00:00:00".toList, "<script>!".toList,
          "f.vmg".toList⟩ : Rec) ∈
        [(⟨"5".toList, "1970-01-01 00:00:00".toList, "<script>!".toList,
          "f.vmg".toList⟩ : Rec)]) ∧
      ("<script>!".toList = [] ++ ("<script>".toList ++ ('!' :: []))) ∧
      "&lt;script&gt;".toList <:+:
        XMLWriter.write [⟨"5".toList, "1970-01-01 00:00:00".toList,
          "<script>!".toList, "f.vmg".toList⟩] :=
  ⟨by decide, by decide,
    xml_escapes_inner_script
      [⟨"5".toList, "1970-01-01 00:00:00".toList, "<script>!".toList, "f.vmg".toList⟩]
      ⟨"5".toList, "1970-01-01 00:00:00".toList, "<script>!".toList, "f.vmg".toList⟩
      [] [] '!' (by decide) (by decide)⟩

/-! ### the tabular writer round-trips through a standard parser -/

theorem csvAux_start_quote (cur row rows rest) :
    csvAux .start cur row rows ('\"' :: rest) = csvAux .quo [] row rows rest := rfl

theorem csvAux_start_comma (cur row rows rest) :
    csvAux .start cur row rows (',' :: rest) = csvAux .start [] (row ++ [[]]) rows rest := rfl

theorem csvAux_start_cr (cur row rows rest) :
    csvAux .start cur row rows ('\r' :: rest) =
      csvAux .needNL [] [] (rows ++ [row ++ [[]]]) rest := rfl

theorem csvAux_start_other {c : Char} (h1 : ¬ c = '\"') (h2 : ¬ c = ',') (h3 : ¬ c = '\r')
    (cur row rows rest) :
    csvAux .start cur row rows (c :: rest) = csvAux .unq [c] row rows rest := by
  rw [csvAux]
  show (if c = '\"' then _ else _) = _
  rw [if_neg h1, if_neg h2, if_neg h3]

theorem csvAux_unq_comma (cur row rows rest) :
    csvAux .unq cur row rows (',' :: rest) = csvAux .start [] (row ++ [cur]) rows rest := rfl

theorem csvAux_unq_cr (cur row rows rest) :
    csvAux .unq cur row rows ('\r' :: rest) =
      csvAux .needNL [] [] (rows ++ [row ++ [cur]]) rest := rfl

theorem csvAux_unq_other {c : Char} (h2 : ¬ c = ',') (h3 : ¬ c = '\r') (cur row rows rest) :
    csvAux .unq cur row rows (c :: rest) = csvAux .unq (cur ++ [c]) row rows rest := by
  rw [csvAux]
  show (if c = ',' then _ else _) = _
  rw [if_neg h2, if_neg h3]

theorem csvAux_quo_quote (cur row rows rest) :
    csvAux .quo cur row rows ('\"' :: rest) = csvAux .afterq cur row rows rest := rfl

theorem csvAux_quo_other {c : Char} (h : ¬ c = '\"') (cur row rows rest) :
    csvAux .quo cur row rows (c :: rest) = csvAux .quo (cur ++ [c]) row rows rest := by
  rw [csvAux]
  show (if c = '\"' then _ else _) = _
  rw [if_neg h]

theorem csvAux_afterq_quote (cur row rows rest) :
    csvAux .afterq cur row rows ('\"' :: rest) = csvAux .quo (cur ++ ['\"']) row rows rest := rfl

theorem csvAux_afterq_comma (cur row rows rest) :
    csvAux .afterq cur row rows (',' :: rest) = csvAux .start [] (row ++ [cur]) rows rest := rfl

theorem csvAux_afterq_cr (cur row rows rest) :
    csvAux .afterq cur row rows ('\r' :: rest) =
      csvAux .needNL [] [] (rows ++ [row ++ [cur]]) rest := rfl

theorem csvAux_needNL_nl (cur row rows rest) :
    csvAux .needNL cur row rows ('\n' :: rest) = csvAux .start [] [] rows rest := rfl

theorem not_special_of_no_quote {f : List Char} (h : needsQuote f = false) :
    ∀ c ∈ f, ¬ c = ',' ∧ ¬ c = '\"' ∧ ¬ c = '\r' ∧ ¬ c = '\n' := by
  intro c hc
  rw [needsQuote] at h
  have := List.any_eq_false.mp h c hc
  simpa [and_assoc] using this

theorem run_unq :
    ∀ (f : List Char), (∀ c ∈ f, ¬ c = ',' ∧ ¬ c = '\r') →
      ∀ cur row rows rest,
        csvAux .unq cur row rows (f ++ rest) = csvAux .unq (cur ++ f) row rows rest
  | [], _, cur, row, rows, rest => by simp
  | c :: f', hf, cur, row, rows, rest => by
    obtain ⟨h2, h3⟩ := hf c (List.mem_cons_self c f')
    rw [List.cons_append, csvAux_unq_other h2 h3,
      run_unq f' (fun d hd => hf d (List.mem_cons_of_mem _ hd)) (cur ++ [c]) row rows rest]
    simp

theorem run_quo :
    ∀ (f : List Char) (cur row rows : _) (rest : List Char),
      csvAux .quo cur row rows (escQuote f ++ rest) = csvAux .quo (cur ++ f) row rows rest
  | [], cur, row, rows, rest => by simp [escQuote]
  | c :: f', cur, row, rows, rest => by
    by_cases hc : c = '\"'
    · subst hc
      rw [show escQuote ('\"' :: f') = '\"' :: '\"' :: escQuote f' from rfl, List.cons_append,
        List.cons_append, csvAux_quo_quote, csvAux_afterq_quote, run_quo f']
      simp
    · rw [show escQuote (c :: f') = [c] ++ escQuote f' from by
        simp [escQuote, hc], List.append_assoc, List.singleton_append,
        csvAux_quo_other hc, run_quo f']
      simp

theorem field_comma (f : List Char) (row rows rest) :
    csvAux .start [] row rows (renderField f ++ ',' :: rest) =
      csvAux .start [] (row ++ [f]) rows rest := by
  rw [renderField]
  by_cases hq : needsQuote f = true
  · rw [if_pos hq, List.cons_append, csvAux_start_quote, List.append_assoc,
      List.singleton_append, run_quo f, csvAux_quo_quote, csvAux_afterq_comma]
    simp
  · rw [if_neg hq]
    replace hq : needsQuote f = false := by simpa using hq
    have hspec := not_special_of_no_quote hq
    match f with
    | [] => rw [List.nil_append, csvAux_start_comma]
    | c :: f' =>
      obtain ⟨hc2, hc1, hc3, -⟩ := hspec c (List.mem_cons_self c f')
      rw [List.cons_append, csvAux_start_other hc1 hc2 hc3,
        run_unq f' (fun d hd => ⟨(hspec d (List.mem_cons_of_mem _ hd)).1,
          (hspec d (List.mem_cons_of_mem _ hd)).2.2.1⟩),
        show ([c] ++ f' : List Char) = c :: f' from rfl, csvAux_unq_comma]

theorem field_crlf (f : List Char) (row rows rest) :
    csvAux .start [] row rows (renderField f ++ '\r' :: '\n' :: rest) =
      csvAux .start [] [] (rows ++ [row ++ [f]]) rest := by
  rw [renderField]
  by_cases hq : needsQuote f = true
  · rw [if_pos hq, List.cons_append, csvAux_start_quote, List.append_assoc,
      List.singleton_append, run_quo f, csvAux_quo_quote, csvAux_afterq_cr, csvAux_needNL_nl]
    simp
  · rw [if_neg hq]
    replace hq : needsQuote f = false := by simpa using hq
    have hspec := not_special_of_no_quote hq
    match f with
    | [] => rw [List.nil_append, csvAux_start_cr, csvAux_needNL_nl]
    | c :: f' =>
      obtain ⟨hc2, hc1, hc3, -⟩ := hspec c (List.mem_cons_self c f')
      rw [List.cons_append, csvAux_start_other hc1 hc2 hc3,
        run_unq f' (fun d hd => ⟨(hspec d (List.mem_cons_of_mem _ hd)).1,
          (hspec d (List.mem_cons_of_mem _ hd)).2.2.1⟩),
        show ([c] ++ f' : List Char) = c :: f' from rfl, csvAux_unq_cr, csvAux_needNL_nl]

theorem row_consume :
    ∀ (fs : List (List Char)) (f : List Char) (row rows : _) (rest : List Char),
      csvAux .start [] row rows (renderRow (f :: fs) ++ rest) =
        csvAux .start [] [] (rows ++ [row ++ f :: fs]) rest
  | [], f, row, rows, rest => by
    rw [show renderRow [f] = renderField f ++ ['\r', '\n'] from rfl, List.append_assoc,
      show (['\r', '\n'] ++ rest : List Char) = '\r' :: '\n' :: rest from rfl,
      field_crlf]
  | f2 :: fs', f, row, rows, rest => by
    rw [show renderRow (f :: f2 :: fs') = renderField f ++ ',' :: renderRow (f2 :: fs')
        from rfl,
      List.append_assoc, List.cons_append, field_comma,
      row_consume fs' f2 (row ++ [f]) rows rest]
    simp

theorem doc_consume :
    ∀ (rs : List (List (List Char))) (acc : List (List (List Char))),
      (∀ r ∈ rs, r ≠ []) →
        csvAux .start [] [] acc ((rs.map renderRow).flatten) = some (acc ++ rs)
  | [], acc, _ => by simp [csvAux]
  | r :: rs', acc, hne => by
    match r, hne r (List.mem_cons_self r rs') with
    | f :: fs, _ =>
      rw [List.map_cons, List.flatten_cons, row_consume fs f [] acc, List.nil_append,
        doc_consume rs' (acc ++ [f :: fs]) (fun r hr => hne r (List.mem_cons_of_mem _ hr))]
      simp

/-- **C7.**  Parsing the emitted tabular output with a standard
comma-delimited parser recovers, after the header row
`(contact, date, body)`, exactly the `(contact, date, body)` triple of
every written record in order — including bodies containing commas,
quotes or newlines, which the writer wraps in quotes with doubled inner
quotes. -/
theorem csv_roundtrip (msgs : List Rec) :
    parseCsv (CSVWriter.write msgs) =
      some (["contact".toList, "date".toList, "body".toList] ::
        msgs.map fun m => [m.contact, m.date, m.body]) := by
  rw [parseCsv, CSVWriter.write]
  have hshape : renderRow ["contact".toList, "date".toList, "body".toList] ++
      (msgs.map fun m => renderRow [m.contact, m.date, m.body]).flatten =
      ((["contact".toList, "date".toList, "body".toList] ::
        msgs.map fun m => [m.contact, m.date, m.body]).map renderRow).flatten := by
    rw [List.map_cons, List.flatten_cons, List.map_map]
    rfl
  rw [hshape, doc_consume _ []]
  · simp
  · intro r hr
    rcases List.mem_cons.mp hr with rfl | hr
    · simp
    · obtain ⟨m, -, rfl⟩ := List.mem_map.mp hr
      simp

end Pyvmg
